import Mathlib

/-!
# spracker: sprite-sheet layout and coordinate projection

A shallow embedding of `spracker.go` (package `spracker`): the name parser
`IsMagnified`, the layout loop of `GenerateSpriteSheet`, and the numbers that the
three stylesheet generators print.

Modelling conventions.

* Go `int` is the 64-bit integer type of the 64-bit platforms: a value is an `Int`
  within `[-2^63, 2^63)`, and every addition, subtraction and negation of the source
  is followed by the reduction `wrap64` to that range (two's-complement wrap-around).
* The conversion `float64(n)` rounds to the nearest float64 (`F64.fromInt`); it is
  exact up to `2^53` in magnitude.  The conversion `int(x)` truncates toward zero;
  where the Go specification leaves its result implementation-dependent (NaN, the
  infinities, values outside the range of `int`) the result is the one of the
  amd64 conversion instruction, the smallest `int`.
* Go `string` is `String`; the byte-level operations used by `IsMagnified`
  (split on `"@"`, last byte equal to `'x'`) act on ASCII bytes only and therefore
  agree with the same operations on the list of characters.
* `float64` is the type `F64` below, with the operations of `math` and of
  `strconv.ParseFloat` written from their documented behaviour; rounding is IEEE 754
  round-to-nearest-even.
* A Go run-time panic is the result `none`.
* The logger is modelled by the list of warnings it receives.  The allocation of the
  sheet (`image.NewRGBA`) and pixel compositing (`draw.Draw`) are not modelled: the
  sheet is represented by its bounds.
-/

set_option exponentiation.threshold 4096

namespace Spracker

/-! ## float64 -/

/-- Number of units of `2^-1074` (the smallest positive float64) in `1.0`. -/
def unit : Nat := 2 ^ 1074

/-- A float64 value.  Every finite float64 is an integer multiple of `2^-1074`;
`fin k` is the finite value `k * 2^-1074`.  The sign of a zero is not
represented. -/
inductive F64 where
  | fin (k : Int)
  | inf (neg : Bool)
  | nan
  deriving DecidableEq, Repr

namespace F64

/-- The value `n` as an `F64`: the float64 constants of the source (`0`, `1`) and
the integer-valued results are written with it. -/
def ofInt (n : Int) : F64 := fin (n * unit)

/-- The rational number denoted by a float64 (`0` for infinities and NaN). -/
def toRat : F64 → ℚ
  | fin k => (k : ℚ) / (unit : ℚ)
  | _ => 0

/-- A float64 is finite when it is neither an infinity nor NaN. -/
def IsFinite : F64 → Prop
  | fin _ => True
  | _ => False

instance : DecidablePred IsFinite := fun x => by
  cases x <;> unfold IsFinite <;> infer_instance

/-- Go comparison `x != 0`: true for NaN and the infinities. -/
def neZero : F64 → Bool
  | fin k => decide (k ≠ 0)
  | _ => true

/-- Go `math.Ceil`: least integer value not below `x`; infinities and NaN are
returned unchanged. -/
def Ceil : F64 → F64
  | fin k => fin (-((-k) / (unit : Int)) * unit)
  | x => x

/-- Go `math.Mod(x, y)`: the remainder of `x / y` with the sign of `x` and magnitude
below `|y|`; NaN when `y = 0` or `x` is infinite or either is NaN; `x` when `y` is
infinite. -/
def Mod : F64 → F64 → F64
  | fin x, fin y => if y = 0 then nan else fin (Int.tmod x y)
  | fin x, inf _ => fin x
  | _, _ => nan

/-- Go `math.Max`: `+Inf` if either argument is `+Inf`, else NaN if either is NaN,
else the larger argument. -/
def Max : F64 → F64 → F64
  | inf false, _ => inf false
  | _, inf false => inf false
  | nan, _ => nan
  | _, nan => nan
  | inf true, y => y
  | x, inf true => x
  | fin x, fin y => fin (max x y)

/-- Go conversion `int(x)`: truncation toward zero.  For NaN, the infinities and a
truncated value outside `[-2^63, 2^63)` the Go specification leaves the result
implementation-dependent; the result here is the one of the amd64 conversion
instruction, `-2^63`. -/
def toInt : F64 → Int
  | fin k =>
      let t := Int.tdiv k unit
      if -9223372036854775808 ≤ t ∧ t < 9223372036854775808 then t
      else -9223372036854775808
  | _ => -9223372036854775808

/-- Nearest integer to `a / b`, ties to even. -/
def roundHalfEven (a b : Nat) : Nat :=
  let q := a / b
  let r := a % b
  if 2 * r < b then q
  else if b < 2 * r then q + 1
  else if q % 2 = 0 then q else q + 1

/-- Number of low bits that must be dropped from `q` to leave at most 53 bits, for
`q < 2^2101`: one more than the largest `sh` with `2^53 ≤ q / 2^sh`, found bit by
bit. -/
def excessBits (q : Nat) : Nat :=
  if q < 2 ^ 53 then 0
  else
    [1024, 512, 256, 128, 64, 32, 16, 8, 4, 2, 1].foldl
      (fun sh j => if 2 ^ 53 ≤ q / 2 ^ (sh + j) then sh + j else sh) 0 + 1

/-- Magnitude `a / b` (in units of `2^-1074`) rounded to the nearest float64
magnitude: at most 53 significant bits, ties to even. -/
def roundMag (a b : Nat) : Nat :=
  let sh := excessBits (a / b)
  roundHalfEven a (b * 2 ^ sh) * 2 ^ sh

/-- IEEE 754 round-to-nearest-even of the real number `(-1)^neg * a / b * 2^-1074`;
a result of magnitude `2^1024` (`2^2098` units) or more overflows to an infinity. -/
def round (neg : Bool) (a b : Nat) : F64 :=
  if 2 ^ 2098 ≤ a / b then inf neg
  else
    let m := roundMag a b
    if 2 ^ 2098 ≤ m then inf neg else fin (if neg then -(m : Int) else m)

/-- Go conversion `float64(n)` of an `int`: the float64 nearest to `n`, ties to
even. -/
def fromInt (n : Int) : F64 := round (decide (n < 0)) (n.natAbs * unit) 1

/-- Go float64 division `x / y`: the exact quotient rounded to nearest, with the
IEEE 754 results for infinities, NaN and a zero divisor (taken as `+0`). -/
def div : F64 → F64 → F64
  | nan, _ => nan
  | _, nan => nan
  | inf _, inf _ => nan
  | inf s, fin y => inf (s != decide (y < 0))
  | fin _, inf _ => fin 0
  | fin x, fin y =>
      if y = 0 then (if x = 0 then nan else inf (decide (x < 0)))
      else round (decide (x < 0) != decide (y < 0)) (x.natAbs * unit) y.natAbs

end F64

/-! ## strconv.ParseFloat and strings.Split -/

/-- Errors of Go `strconv.ParseFloat`. -/
inductive NumError where
  | ErrSyntax
  | ErrRange
  deriving DecidableEq, Repr

/-- Value of a string of decimal digits. -/
def digitsToNat (ds : List Char) : Nat :=
  ds.foldl (fun acc c => 10 * acc + (c.toNat - '0'.toNat)) 0

/-- Optional leading sign of a number: whether it is `-`, and the rest. -/
def readSign : List Char → Bool × List Char
  | '+' :: t => (false, t)
  | '-' :: t => (true, t)
  | s => (false, s)

/-- The strings `ParseFloat` accepts for the special values, case-insensitively:
`nan`, and `inf` or `infinity` with an optional sign. -/
def special (s : List Char) : Option F64 :=
  let l := s.map Char.toLower
  if l = "nan".data then some F64.nan
  else if l = "inf".data ∨ l = "+inf".data ∨ l = "infinity".data ∨ l = "+infinity".data then
    some (F64.inf false)
  else if l = "-inf".data ∨ l = "-infinity".data then some (F64.inf true)
  else none

/-- The fraction of a decimal literal, read after the integer digits: the digits
that follow a `.`, and the rest. -/
def readFraction : List Char → List Char × List Char
  | '.' :: t => (t.takeWhile Char.isDigit, t.dropWhile Char.isDigit)
  | s => ([], s)

/-- The exponent of a decimal literal, read after mantissa: nothing, or `e`/`E`, an
optional sign and at least one digit, up to the end of the string. -/
def readExponent : List Char → Option Int
  | [] => some 0
  | c :: t =>
      if c = 'e' ∨ c = 'E' then
        let (eneg, ds) := readSign t
        if ds.isEmpty || !ds.all Char.isDigit then none
        else
          let e : Int := digitsToNat ds
          some (if eneg then -e else e)
      else none

/-- A decimal floating-point literal: sign, digits with at most one `.` and
at least one digit, optional exponent.  Result: sign, decimal mantissa and decimal
exponent. -/
def readFloat (s : List Char) : Option (Bool × Nat × Int) :=
  let (neg, s1) := readSign s
  let ip := s1.takeWhile Char.isDigit
  let (fp, s3) := readFraction (s1.dropWhile Char.isDigit)
  if ip.isEmpty && fp.isEmpty then none
  else
    match readExponent s3 with
    | none => none
    | some e => some (neg, digitsToNat (ip ++ fp), e - (fp.length : Int))

/-- Go `strconv.ParseFloat(s, 64)` for the decimal syntax: the float64 nearest to
the literal (ties to even); `ErrRange` when that overflows, `ErrSyntax` when `s`
is not a literal.  The value Go returns next to an error is not kept, since the
caller discards it.  Hexadecimal literals and digit-separating underscores, which
Go accepts from release 1.13 on, are syntax errors here as in the releases this
source was written for. -/
def ParseFloat (s : List Char) : Except NumError F64 :=
  match special s with
  | some v => .ok v
  | none =>
    match readFloat s with
    | none => .error .ErrSyntax
    | some (neg, mant, e) =>
        let r :=
          if 0 ≤ e then F64.round neg (mant * 10 ^ e.toNat * unit) 1
          else F64.round neg (mant * unit) (10 ^ (-e).toNat)
        match r with
        | F64.fin k => .ok (F64.fin k)
        | _ => .error .ErrRange

/-- Go `strings.Split(s, sep)` for a one-byte separator: the pieces of `s` between
occurrences of `sep`; always at least one piece. -/
def Split : List Char → Char → List (List Char)
  | [], _ => [[]]
  | c :: cs, sep =>
      if c = sep then [] :: Split cs sep
      else
        match Split cs sep with
        | seg :: rest => (c :: seg) :: rest
        | [] => [[c]]

/-! ## IsMagnified -/

/-- Go `IsMagnified(name)`, returning `(isIt, baseName, factor)`.  The result `none`
is the index-out-of-range panic of `factorStr[len(factorStr)-1]` on an empty
`factorStr`. -/
def IsMagnified (name : String) : Option (Bool × String × F64) :=
  match Split name.data '@' with
  | [baseName, factorStr] =>
      match factorStr.getLast? with
      | none => none
      | some c =>
          if c = 'x' then
            match ParseFloat factorStr.dropLast with
            | .error _ => some (false, name, F64.ofInt 1)
            | .ok f => some (true, String.mk baseName, f)
          else some (false, name, F64.ofInt 1)
  | _ => some (false, name, F64.ofInt 1)

/-! ## Images, sprites and the layout loop of GenerateSpriteSheet -/

/-- Reduction of an integer to the range `[-2^63, 2^63)` of a Go `int` modulo
`2^64`: the value that 64-bit two's-complement arithmetic keeps. -/
def wrap64 (n : Int) : Int :=
  (n + 9223372036854775808) % 18446744073709551616 - 9223372036854775808

/-- Go `image.Point`. -/
structure Point where
  X : Int
  Y : Int
  deriving DecidableEq, Repr

/-- Go `image.Rectangle`. -/
structure Rectangle where
  Min : Point
  Max : Point
  deriving DecidableEq, Repr

/-- Go `Rectangle.Dx`. -/
def Rectangle.Dx (r : Rectangle) : Int := wrap64 (r.Max.X - r.Min.X)

/-- Go `Rectangle.Dy`. -/
def Rectangle.Dy (r : Rectangle) : Int := wrap64 (r.Max.Y - r.Min.Y)

/-- Go `image.Rect`: the rectangle with the given corners, with the minimum and
maximum coordinates swapped where necessary so that it is well-formed. -/
def Rect (x0 y0 x1 y1 : Int) : Rectangle :=
  let (x0, x1) := if x0 > x1 then (x1, x0) else (x0, x1)
  let (y0, y1) := if y0 > y1 then (y1, y0) else (y0, y1)
  ⟨⟨x0, y0⟩, ⟨x1, y1⟩⟩

/-- An image bundled with its name; of the embedded `image.Image` only `Bounds()`
is read by the layout. -/
structure Image where
  Name : String
  Bounds : Rectangle
  deriving DecidableEq, Repr

/-- The name of a sprite image bundled with its viewport into the sprite-sheet. -/
structure Sprite where
  Name : String
  MagFactor : F64
  TopPadding : Int
  BottomPadding : Int
  Rectangle : Rectangle
  deriving DecidableEq, Repr

/-- Go `Sprite.Width`. -/
def Sprite.Width (s : Sprite) : Int := wrap64 (s.Rectangle.Max.X - s.Rectangle.Min.X)

/-- Go `Sprite.Height`. -/
def Sprite.Height (s : Sprite) : Int := wrap64 (s.Rectangle.Max.Y - s.Rectangle.Min.Y)

/-- The arguments of one `log.Warningf` call of `GenerateSpriteSheet`. -/
structure Warning where
  name : String
  height : Int
  factor : F64
  deriving DecidableEq, Repr

/-- The variables of `GenerateSpriteSheet` that live across iterations of its
first loop, and the warnings logged so far. -/
structure LayoutState where
  sheetHeight : Int
  sheetWidth : Int
  sprites : List Sprite
  log : List Warning
  deriving DecidableEq, Repr

/-- The test `math.Mod(float64(bounds.Dy()), factor) != 0` of `GenerateSpriteSheet`,
on the image height `h`: whether the fudge is applied and the warning logged. -/
def notMultiple (h : Int) (factor : F64) : Bool :=
  F64.neZero (F64.Mod (F64.fromInt h) factor)

/-- One iteration of the first loop of `GenerateSpriteSheet`. -/
def layoutStep (st : LayoutState) (img : Image) : Option LayoutState :=
  let bounds := img.Bounds
  match IsMagnified img.Name with
  | none => none
  | some (_, name, factor) =>
    let thisTopPadding := F64.Ceil factor
    let thisBottomPadding := thisTopPadding
    let fudge : Int := if notMultiple bounds.Dy factor then 1 else 0
    let log :=
      if notMultiple bounds.Dy factor then st.log ++ [⟨name, bounds.Dy, factor⟩] else st.log
    let (prevBottomPadding, thisTopPadding) :=
      match st.sprites.getLast? with
      | none => (F64.ofInt 0, F64.ofInt 0)
      | some prev => (F64.fromInt prev.BottomPadding, thisTopPadding)
    let thisTopPadding := F64.Max thisTopPadding prevBottomPadding
    let thisTopPaddingInt := F64.toInt thisTopPadding
    let thisBottomPaddingInt := F64.toInt thisBottomPadding
    let newSprite : Sprite :=
      { Name := name
        MagFactor := factor
        TopPadding := thisTopPaddingInt
        BottomPadding := thisBottomPaddingInt
        Rectangle := Rect 0 (wrap64 (wrap64 (st.sheetHeight + thisTopPaddingInt) - fudge))
          bounds.Dx (wrap64 (wrap64 (st.sheetHeight + thisTopPaddingInt) + bounds.Dy)) }
    some
      { sheetHeight := wrap64 (st.sheetHeight + wrap64 (bounds.Dy + thisTopPaddingInt))
        sheetWidth := if bounds.Dx > st.sheetWidth then bounds.Dx else st.sheetWidth
        sprites := st.sprites ++ [newSprite]
        log := log }

/-- The first loop of `GenerateSpriteSheet`, run over `images` from state `st`. -/
def layoutLoop : List Image → LayoutState → Option LayoutState
  | [], st => some st
  | img :: rest, st =>
      match layoutStep st img with
      | none => none
      | some st1 => layoutLoop rest st1

/-- What `GenerateSpriteSheet` produces: the bounds of the sheet image, the sprite
records, and the warnings logged. -/
structure SheetResult where
  sheet : Rectangle
  sprites : List Sprite
  log : List Warning
  deriving DecidableEq, Repr

/-- Go `GenerateSpriteSheet(images, log)`: the first loop, then the sheet image
created with the bounds `image.Rect(0, 0, sheetWidth, sheetHeight)`.  The result
`none` is a panic of `IsMagnified`; whether a sheet of these bounds can be allocated
is outside the model. -/
def GenerateSpriteSheet (images : List Image) : Option SheetResult :=
  match layoutLoop images ⟨0, 0, [], []⟩ with
  | none => none
  | some st =>
      some
        { sheet := Rect 0 0 st.sheetWidth st.sheetHeight
          sprites := st.sprites
          log := st.log }

/-- An image of the given name and size, with bounds at the origin. -/
def mkImage (name : String) (w h : Int) : Image := ⟨name, Rect 0 0 w h⟩

/-! ## The numbers printed by the stylesheet generators -/

/-- The four numbers that one stylesheet rule prints for a sprite, in the order of
the format string: background position x and y, width, height.  The text around
them (names, URL, `background-size`) is not modelled. -/
structure LogicalRect where
  x : F64
  y : F64
  width : F64
  height : F64
  deriving DecidableEq, Repr

/-- Go `GenerateScssVariables`: per sprite the values of `$..-x`, `$..-y`, `$..-width`
and `$..-height`. -/
def GenerateScssVariables (sprites : List Sprite) : List LogicalRect :=
  sprites.map fun s =>
    let factor := s.MagFactor
    { x := F64.div (F64.fromInt (wrap64 (-s.Rectangle.Min.X))) factor
      y := F64.div (F64.fromInt (wrap64 (-s.Rectangle.Min.Y))) factor
      width := F64.div (F64.fromInt s.Width) factor
      height := F64.div (F64.fromInt s.Height) factor }

/-- Go `GenerateScssMixins`: per sprite the background position, width and height of
its mixin. -/
def GenerateScssMixins (sprites : List Sprite) : List LogicalRect :=
  sprites.map fun s =>
    let factor := s.MagFactor
    { x := F64.div (F64.fromInt (wrap64 (-s.Rectangle.Min.X))) factor
      y := F64.div (F64.fromInt (wrap64 (-s.Rectangle.Min.Y))) factor
      width := F64.div (F64.fromInt s.Width) factor
      height := F64.div (F64.fromInt s.Height) factor }

/-- Go `GenerateCssClasses`: per sprite the background position, width and height of
its class. -/
def GenerateCssClasses (sprites : List Sprite) : List LogicalRect :=
  sprites.map fun s =>
    let factor := s.MagFactor
    { x := F64.div (F64.fromInt (wrap64 (-s.Rectangle.Min.X))) factor
      y := F64.div (F64.fromInt (wrap64 (-s.Rectangle.Min.Y))) factor
      width := F64.div (F64.fromInt s.Width) factor
      height := F64.div (F64.fromInt s.Height) factor }

/-! ## Notions used to state the properties -/

namespace F64

/-- The height `h` is an exact multiple of the factor `f`: `f` is a non-zero number
and `h = z * f` for an integer `z` (stated on the numbers of units of `2^-1074`). -/
def IsMultipleOf (h : Int) (f : F64) : Prop :=
  match f with
  | fin k => k ≠ 0 ∧ k ∣ h * unit
  | _ => False

instance (h : Int) (f : F64) : Decidable (IsMultipleOf h f) := by
  unfold IsMultipleOf; split <;> infer_instance

/-- The values that are float64 numbers: NaN, the infinities, and the finite values
whose magnitude is `m * 2^j` units of `2^-1074` with `m < 2^53`, below `2^1024`. -/
def IsFloat64 : F64 → Prop
  | fin k => ∃ m j : Nat, m < 2 ^ 53 ∧ k.natAbs = m * 2 ^ j ∧ k.natAbs < 2 ^ 2098
  | _ => True

/-- The value `r` is a float64 nearest to the rational number `q`: no finite float64
is nearer. -/
def IsNearest (r : F64) (q : ℚ) : Prop :=
  r.IsFloat64 ∧ ∀ g : F64, g.IsFinite → g.IsFloat64 → |r.toRat - q| ≤ |g.toRat - q|

/-- The list `l` consists of the successive halves of the width `w` down to 1. -/
def Halves : List Nat → Nat → Prop
  | [], w => w = 1
  | j :: l, w => w = 2 * j ∧ Halves l j

end F64

/-- The integer `n` is a value of the Go type `int`. -/
def IsInt64 (n : Int) : Prop := -2 ^ 63 ≤ n ∧ n < 2 ^ 63

/-- Top padding applied to a sprite of factor `f` placed after `prev`. -/
def topPad (prev : Option Sprite) (f : F64) : Int :=
  match prev with
  | none => 0
  | some p => max ⌈f.toRat⌉ p.BottomPadding

/-- Every name is parsed without a panic to a finite factor whose ceiling is a value
of the type `int`. -/
def Convertible (images : List Image) : Prop :=
  ∀ img ∈ images, ∃ isIt base f, IsMagnified img.Name = some (isIt, base, f) ∧
    f.IsFinite ∧ IsInt64 ⌈f.toRat⌉

/-- What one image can add to the magnitude of the running sheet height and of the
paddings: the magnitude of its height plus twice that of its bottom padding
`int(math.Ceil(factor))`. -/
def spread (img : Image) : Int :=
  match IsMagnified img.Name with
  | some (_, _, f) =>
      (img.Bounds.Dy.natAbs : Int) + 2 * ((F64.toInt (F64.Ceil f)).natAbs : Int)
  | none => 0

/-- Sum over the images of `|height| + 2 * |int(ceil(factor))|`.  While it is below
`2^63 - 1`, every factor is finite with a ceiling in the range of `int`, which is then
the bottom padding, and no addition of the layout loop leaves that range. -/
def extent (images : List Image) : Int := (images.map spread).sum

/-- Sum over the paired images and sprites of image height plus applied top
padding. -/
def paddedHeights (images : List Image) (sprites : List Sprite) : Int :=
  (List.zipWith (fun img s => img.Bounds.Dy + s.TopPadding) images sprites).sum

/-- The warning logged for an image and its sprite, if any: one exactly when the
test of the loop on the height succeeds. -/
def warningFor (p : Image × Sprite) : Option Warning :=
  if notMultiple p.1.Bounds.Dy p.2.MagFactor then some ⟨p.2.Name, p.1.Bounds.Dy, p.2.MagFactor⟩
  else none

/-- What the loop has established about the name, factor and paddings of the sprite
`s` made for image `img`, given the sprites before it. -/
def PadsOf (prior : List Sprite) (img : Image) (s : Sprite) : Prop :=
  (∃ isIt, IsMagnified img.Name = some (isIt, s.Name, s.MagFactor)) ∧
  s.MagFactor.IsFinite ∧
  s.BottomPadding = ⌈s.MagFactor.toRat⌉ ∧
  s.TopPadding = topPad prior.getLast? s.MagFactor

/-- Invariant of the layout loop after the images `images`, on names, factors,
paddings, sheet width and log: it holds when every factor is finite with a ceiling
in the range of `int`. -/
structure PadInv (images : List Image) (st : LayoutState) : Prop where
  length_eq : st.sprites.length = images.length
  width_eq : st.sheetWidth = (images.map fun img => img.Bounds.Dx).foldr max 0
  log_eq : st.log = (images.zip st.sprites).filterMap warningFor
  pads : ∀ i img s, images[i]? = some img → st.sprites[i]? = some s →
    PadsOf (st.sprites.take i) img s
  last : ∀ p, st.sprites.getLast? = some p →
    IsInt64 p.BottomPadding ∧ F64.fromInt p.BottomPadding = F64.ofInt p.BottomPadding

/-- Magnitude of the bottom padding of the last sprite (`0` when there is none). -/
def lastPad (sprites : List Sprite) : Int :=
  match sprites.getLast? with
  | none => 0
  | some p => (p.BottomPadding.natAbs : Int)

/-- Invariant of the layout loop after the images `images`, on the running height
and the rectangles: it holds while the sums stay in the range of `int`. -/
structure PosInv (images : List Image) (st : LayoutState) : Prop where
  height_eq : st.sheetHeight = paddedHeights images st.sprites
  rect : ∀ i img s, images[i]? = some img → st.sprites[i]? = some s →
    s.Rectangle = Rect 0
      (paddedHeights (images.take i) (st.sprites.take i) + s.TopPadding
        - (if notMultiple img.Bounds.Dy s.MagFactor then 1 else 0))
      img.Bounds.Dx
      (paddedHeights (images.take i) (st.sprites.take i) + s.TopPadding + img.Bounds.Dy)
  bound : (st.sheetHeight.natAbs : Int) + lastPad st.sprites ≤ extent images

/-- Sum of the heights of the images. -/
def sumHeights (images : List Image) : Int :=
  (images.map fun img => img.Bounds.Dy).sum

/-- The characters a decimal literal is made of. -/
def IsNumChar (c : Char) : Prop :=
  c.isDigit = true ∨ c = '+' ∨ c = '-' ∨ c = '.' ∨ c = 'e' ∨ c = 'E'

/-- Three unmagnified images of heights 10, 20 and 30, the widest in the middle. -/
def threePlain : List Image := [mkImage "a" 5 10, mkImage "b" 7 20, mkImage "c" 3 30]

/-- One image of height 15 named for factor 2. -/
def oneRetina : List Image := [mkImage "icon@2x" 8 15]

/-- Two images of height 1 whose names carry the factor -5. -/
def negativeFactors : List Image := [mkImage "a@-5x" 1 1, mkImage "b@-5x" 1 1]

/-- Images of factors 2, 1 and 3. -/
def mixedFactors : List Image := [mkImage "a@2x" 4 15, mkImage "b" 6 7, mkImage "c@3x" 2 9]

/-- A sprite of factor 2 at the rows 12 to 42 of a sheet, 8 wide. -/
def retinaSprite : Sprite := ⟨"icon", F64.ofInt 2, 2, 2, ⟨⟨0, 12⟩, ⟨8, 42⟩⟩⟩

/-- Four unmagnified images of height `2^62`, 1 wide. -/
def fourHuge : List Image :=
  [mkImage "a" 1 4611686018427387904, mkImage "b" 1 4611686018427387904,
    mkImage "c" 1 4611686018427387904, mkImage "d" 1 4611686018427387904]

/-- An image of height 1000 followed by two images, of heights 100 and 1, whose
names carry the factor `2^63 - 1024`, a float64 and an `int`. -/
def overflowing : List Image :=
  [mkImage "a" 1 1000, mkImage "b@9223372036854774784x" 1 100,
    mkImage "c@9223372036854774784x" 1 1]

/-- An image of height 10 followed by two images of height 10 whose names carry the
factor `+Inf`. -/
def infiniteFactors : List Image :=
  [mkImage "a" 1 10, mkImage "b@infx" 1 10, mkImage "c@infx" 1 10]

/-- One image whose name carries the factor `10^19`, above every `int`. -/
def hugeFactor : List Image := [mkImage "icon@1e19x" 1 1]

/-- An image of height `2^53 + 1`, a multiple of 3, named for factor 3, followed by
two images of height 1 whose names carry the factor `-2^53`; the negative top
padding of the last one brings the sheet height back to 6. -/
def tallThird : List Image :=
  [mkImage "t@3x" 1 9007199254740993, mkImage "u@-9007199254740992x" 1 1,
    mkImage "v@-9007199254740992x" 1 1]

/-- One image 7 wide and 10 high named for factor 2. -/
def oddWidth : List Image := [mkImage "icon@2x" 7 10]

/-- The result of `GenerateSpriteSheet` on `threePlain`. -/
def threePlainResult : SheetResult :=
  { sheet := ⟨⟨0, 0⟩, ⟨7, 62⟩⟩
    sprites := [⟨"a", F64.ofInt 1, 0, 1, ⟨⟨0, 0⟩, ⟨5, 10⟩⟩⟩,
      ⟨"b", F64.ofInt 1, 1, 1, ⟨⟨0, 11⟩, ⟨7, 31⟩⟩⟩,
      ⟨"c", F64.ofInt 1, 1, 1, ⟨⟨0, 32⟩, ⟨3, 62⟩⟩⟩]
    log := [] }

/-- The result of `GenerateSpriteSheet` on `mixedFactors`. -/
def mixedResult : SheetResult :=
  { sheet := ⟨⟨0, 0⟩, ⟨6, 36⟩⟩
    sprites := [⟨"a", F64.ofInt 2, 0, 2, ⟨⟨0, -1⟩, ⟨4, 15⟩⟩⟩,
      ⟨"b", F64.ofInt 1, 2, 1, ⟨⟨0, 17⟩, ⟨6, 24⟩⟩⟩,
      ⟨"c", F64.ofInt 3, 3, 3, ⟨⟨0, 27⟩, ⟨2, 36⟩⟩⟩]
    log := [⟨"a", 15, F64.ofInt 2⟩] }

/-- A sprite of factor 3 that is `2^53 + 1` wide, a multiple of 3. -/
def wideSprite : Sprite := ⟨"w", F64.ofInt 3, 3, 3, ⟨⟨0, 0⟩, ⟨9007199254740993, 3⟩⟩⟩

/-! ## Supporting lemmas -/

theorem wrap64_eq (n : Int) (h : IsInt64 n) : wrap64 n = n := by
  obtain ⟨h1, h2⟩ := h
  unfold wrap64
  omega

theorem wrap64_isInt64 (n : Int) : IsInt64 (wrap64 n) := by
  unfold wrap64 IsInt64
  constructor <;> omega

theorem unit_pos : 0 < unit := Nat.pow_pos (by decide)

theorem unit_pos_int : (0 : Int) < (unit : Int) := by exact_mod_cast unit_pos

theorem unit_ne_zero_int : (unit : Int) ≠ 0 := ne_of_gt unit_pos_int

namespace F64

theorem ceil_toRat_fin (k : Int) : ⌈(fin k).toRat⌉ = -((-k) / (unit : Int)) := by
  unfold toRat
  have h := Rat.floor_intCast_div_natCast (-k) unit
  have h2 : ⌈(k : ℚ) / (unit : ℚ)⌉ = -⌊((-k : Int) : ℚ) / (unit : ℚ)⌋ := by
    rw [Int.cast_neg, neg_div, Int.floor_neg, neg_neg]
  rw [h2, h]

theorem Ceil_fin (k : Int) : Ceil (fin k) = ofInt ⌈(fin k).toRat⌉ := by
  rw [ceil_toRat_fin]; rfl

theorem toInt_ofInt (n : Int) (h : IsInt64 n) : toInt (ofInt n) = n := by
  obtain ⟨h1, h2⟩ := h
  unfold toInt ofInt
  simp only [Int.mul_tdiv_cancel _ unit_ne_zero_int]
  rw [if_pos ⟨by omega, by omega⟩]

theorem Max_ofInt (a b : Int) : Max (ofInt a) (ofInt b) = ofInt (max a b) := by
  unfold ofInt Max
  simp only
  congr 1
  rcases le_total a b with h | h
  · rw [max_eq_right h, max_eq_right (Int.mul_le_mul_of_nonneg_right h unit_pos_int.le)]
  · rw [max_eq_left h, max_eq_left (Int.mul_le_mul_of_nonneg_right h unit_pos_int.le)]

theorem toRat_ofInt (n : Int) : toRat (ofInt n) = n := by
  unfold toRat ofInt
  have : ((unit : Nat) : ℚ) ≠ 0 := by exact_mod_cast unit_pos.ne'
  push_cast
  field_simp

theorem isMultipleOf_fin (h k : Int) :
    IsMultipleOf h (fin k) ↔ k ≠ 0 ∧ k ∣ h * unit := Iff.rfl

/-- The predicate `IsMultipleOf h f` says that `h / f` is an integer. -/
theorem isMultipleOf_iff (h : Int) (f : F64) :
    IsMultipleOf h f ↔ f.toRat ≠ 0 ∧ ∃ z : Int, (h : ℚ) = z * f.toRat := by
  have hu : ((unit : Nat) : ℚ) ≠ 0 := by exact_mod_cast unit_pos.ne'
  cases f with
  | inf s => simp [IsMultipleOf, toRat]
  | nan => simp [IsMultipleOf, toRat]
  | fin k =>
    rw [isMultipleOf_fin]
    unfold toRat
    constructor
    · rintro ⟨hk, z, hz⟩
      refine ⟨?_, z, ?_⟩
      · have : (k : ℚ) ≠ 0 := by exact_mod_cast hk
        exact div_ne_zero this hu
      · have : ((h * unit : Int) : ℚ) = ((k * z : Int) : ℚ) := by rw [hz]
        push_cast at this
        field_simp
        rw [this]; ring
    · rintro ⟨hk, z, hz⟩
      refine ⟨fun h0 => hk (by simp [h0]), z, ?_⟩
      have : ((h * unit : Int) : ℚ) = ((k * z : Int) : ℚ) := by
        push_cast
        rw [hz]; field_simp; ring
      exact_mod_cast this

theorem neZero_Mod_ofInt_fin (h k : Int) :
    neZero (Mod (ofInt h) (fin k)) = true ↔ ¬ IsMultipleOf h (fin k) := by
  rw [isMultipleOf_fin]
  unfold Mod ofInt
  by_cases hk : k = 0
  · simp [hk, neZero]
  · simp only [hk, if_false, neZero, decide_eq_true_eq, ne_eq, not_false_eq_true, true_and]
    rw [Int.dvd_iff_tmod_eq_zero]

end F64

theorem layoutLoop_append (xs ys : List Image) (st : LayoutState) :
    layoutLoop (xs ++ ys) st = (layoutLoop xs st).bind (layoutLoop ys) := by
  induction xs generalizing st with
  | nil => rfl
  | cons x xs ih =>
    simp only [List.cons_append, layoutLoop]
    cases layoutStep st x with
    | none => rfl
    | some st1 => exact ih st1

theorem layoutLoop_singleton (img : Image) (st : LayoutState) :
    layoutLoop [img] st = layoutStep st img := by
  simp only [layoutLoop]
  cases layoutStep st img <;> rfl

theorem foldr_max_snoc (l : List Int) (x : Int) :
    (l ++ [x]).foldr max 0 = max (l.foldr max 0) x := by
  induction l with
  | nil => simp [max_comm]
  | cons a l ih => simp only [List.cons_append, List.foldr_cons, ih, max_assoc]

theorem paddedHeights_snoc (images : List Image) (sprites : List Sprite) (img : Image)
    (s : Sprite) (hlen : sprites.length = images.length) :
    paddedHeights (images ++ [img]) (sprites ++ [s])
      = paddedHeights images sprites + (img.Bounds.Dy + s.TopPadding) := by
  unfold paddedHeights
  rw [List.zipWith_append _ _ _ _ _ hlen.symm]
  simp

theorem getLast?_take_succ {α : Type} (l : List α) (i : Nat) (a : α) (h : l[i]? = some a) :
    (l.take (i + 1)).getLast? = some a := by
  rw [List.getLast?_take]
  simp [h]

theorem foldr_max_nonneg (l : List Int) : 0 ≤ l.foldr max 0 := by
  induction l with
  | nil => simp
  | cons a l ih => simp only [List.foldr_cons]; exact le_max_of_le_right ih

/-- The fold `foldr max 0` is the largest of 0 and the elements of the list. -/
theorem foldr_max_spec (l : List Int) :
    (∀ x ∈ l, x ≤ l.foldr max 0) ∧ (l.foldr max 0 = 0 ∨ l.foldr max 0 ∈ l) := by
  induction l with
  | nil => simp
  | cons a l ih =>
    simp only [List.foldr_cons, List.mem_cons]
    constructor
    · intro x hx
      rcases hx with rfl | hx
      · exact le_max_left _ _
      · exact le_max_of_le_right (ih.1 x hx)
    · rcases le_total a (l.foldr max 0) with h | h
      · rw [max_eq_right h]
        rcases ih.2 with h0 | h0
        · exact Or.inl h0
        · exact Or.inr (Or.inr h0)
      · rw [max_eq_left h]
        exact Or.inr (Or.inl rfl)

theorem Rect_zero_zero (w h : Int) (hw : 0 ≤ w) (hw2 : w < 2 ^ 63) (hh : |h| < 2 ^ 63) :
    (Rect 0 0 w h).Dx = w ∧ (Rect 0 0 w h).Dy = |h| := by
  unfold Rect Rectangle.Dx Rectangle.Dy
  have h1 : ¬ (0 : Int) > w := by omega
  simp only [h1, if_false]
  by_cases h2 : (0 : Int) > h
  · simp only [h2, if_true]
    rw [abs_of_neg h2] at hh ⊢
    exact ⟨by rw [wrap64_eq _ ⟨by omega, by omega⟩]; omega,
      by rw [wrap64_eq _ ⟨by omega, by omega⟩]; omega⟩
  · simp only [h2, if_false]
    rw [abs_of_nonneg (by omega)] at hh ⊢
    exact ⟨by rw [wrap64_eq _ ⟨by omega, by omega⟩]; omega,
      by rw [wrap64_eq _ ⟨by omega, by omega⟩]; omega⟩

theorem Rect_Y (x0 y0 x1 y1 : Int) (h : y0 ≤ y1) :
    (Rect x0 y0 x1 y1).Min.Y = y0 ∧ (Rect x0 y0 x1 y1).Max.Y = y1 := by
  unfold Rect
  have h1 : ¬ y0 > y1 := by omega
  by_cases h2 : x0 > x1 <;> simp [h1, h2]

theorem Rect_zero_X (y0 x1 y1 : Int) (h : 0 ≤ x1) :
    (Rect 0 y0 x1 y1).Min.X = 0 ∧ (Rect 0 y0 x1 y1).Max.X = x1 := by
  unfold Rect
  have h1 : ¬ (0 : Int) > x1 := by omega
  by_cases h2 : y0 > y1 <;> simp [h1, h2]

theorem paddedHeights_take_succ (images : List Image) (sprites : List Sprite) (i : Nat)
    (img : Image) (s : Sprite) (hi : images[i]? = some img) (hs : sprites[i]? = some s) :
    paddedHeights (images.take (i + 1)) (sprites.take (i + 1))
      = paddedHeights (images.take i) (sprites.take i) + (img.Bounds.Dy + s.TopPadding) := by
  unfold paddedHeights
  rw [List.take_succ, List.take_succ, hi, hs]
  simp only [Option.toList]
  rw [List.zipWith_append]
  · simp
  · have h1 := (List.getElem?_eq_some_iff.mp hi).1
    have h2 := (List.getElem?_eq_some_iff.mp hs).1
    simp [List.length_take, Nat.min_eq_left h1.le, Nat.min_eq_left h2.le]

theorem ceil_toRat_ofInt (n : Int) : ⌈(F64.ofInt n).toRat⌉ = n := by
  rw [F64.toRat_ofInt, Int.ceil_intCast]

theorem sumHeights_take_succ (images : List Image) (i : Nat) (img : Image)
    (hi : images[i]? = some img) :
    sumHeights (images.take (i + 1)) = sumHeights (images.take i) + img.Bounds.Dy := by
  unfold sumHeights
  rw [List.take_succ, hi]
  simp

theorem Split_cons_sep (cs : List Char) (sep : Char) :
    Split (sep :: cs) sep = [] :: Split cs sep := by
  rw [Split, if_pos rfl]

theorem Split_cons_of_ne (c : Char) (cs : List Char) (sep : Char) (seg : List Char)
    (rest : List (List Char)) (hc : c ≠ sep) (hs : Split cs sep = seg :: rest) :
    Split (c :: cs) sep = (c :: seg) :: rest := by
  rw [Split, if_neg hc, hs]

theorem Split_ne_nil (l : List Char) (sep : Char) : Split l sep ≠ [] := by
  cases l with
  | nil => simp [Split]
  | cons c cs =>
    by_cases hc : c = sep
    · subst hc; rw [Split_cons_sep]; simp
    · cases hs : Split cs sep with
      | nil => rw [Split, if_neg hc, hs]; simp
      | cons seg rest => rw [Split_cons_of_ne c cs sep seg rest hc hs]; simp

theorem Split_of_not_mem (l : List Char) (sep : Char) (h : sep ∉ l) : Split l sep = [l] := by
  induction l with
  | nil => rfl
  | cons c cs ih =>
    have hc : c ≠ sep := fun e => h (by simp [e])
    have hcs : sep ∉ cs := fun e => h (List.mem_cons_of_mem _ e)
    exact Split_cons_of_ne c cs sep cs [] hc (ih hcs)

theorem Split_append_sep (a b : List Char) (sep : Char) (h : sep ∉ a) :
    Split (a ++ sep :: b) sep = a :: Split b sep := by
  induction a with
  | nil => exact Split_cons_sep b sep
  | cons c cs ih =>
    have hc : c ≠ sep := fun e => h (by simp [e])
    have hcs : sep ∉ cs := fun e => h (List.mem_cons_of_mem _ e)
    exact Split_cons_of_ne c _ sep cs _ hc (ih hcs)

theorem Split_eq_singleton (l : List Char) (sep : Char) (b : List Char)
    (h : Split l sep = [b]) : l = b ∧ sep ∉ b := by
  induction l generalizing b with
  | nil =>
    simp only [Split, List.cons.injEq, and_true] at h
    subst h; simp
  | cons c cs ih =>
    by_cases hc : c = sep
    · subst hc
      rw [Split_cons_sep] at h
      injection h with _ h2
      exact absurd h2 (Split_ne_nil cs c)
    · cases hs : Split cs sep with
      | nil => exact absurd hs (Split_ne_nil cs sep)
      | cons seg rest =>
        rw [Split_cons_of_ne c cs sep seg rest hc hs] at h
        injection h with h1 h2
        subst h1 h2
        obtain ⟨e, hn⟩ := ih seg hs
        subst e
        exact ⟨rfl, fun hm => by
          rcases List.mem_cons.mp hm with e | e
          · exact hc e.symm
          · exact hn e⟩

theorem Split_eq_pair (l : List Char) (sep : Char) (a b : List Char)
    (h : Split l sep = [a, b]) : l = a ++ sep :: b ∧ sep ∉ a ∧ sep ∉ b := by
  induction l generalizing a with
  | nil => simp [Split] at h
  | cons c cs ih =>
    by_cases hc : c = sep
    · subst hc
      rw [Split_cons_sep] at h
      injection h with h1 h2
      subst h1
      obtain ⟨e, hn⟩ := Split_eq_singleton cs c b h2
      subst e
      exact ⟨rfl, by simp, hn⟩
    · cases hs : Split cs sep with
      | nil => exact absurd hs (Split_ne_nil cs sep)
      | cons seg rest =>
        rw [Split_cons_of_ne c cs sep seg rest hc hs] at h
        injection h with h1 h2
        subst h1 h2
        obtain ⟨e, hna, hnb⟩ := ih seg hs
        refine ⟨by rw [e]; rfl, fun hm => ?_, hnb⟩
        rcases List.mem_cons.mp hm with e' | e'
        · exact hc e'.symm
        · exact hna e'

theorem readSign_spec (s : List Char) :
    (readSign s).2 = s ∨ ∃ c, (c = '+' ∨ c = '-') ∧ s = c :: (readSign s).2 := by
  cases s with
  | nil => left; rfl
  | cons c t =>
    by_cases h1 : c = '+'
    · subst h1; right; exact ⟨'+', Or.inl rfl, rfl⟩
    · by_cases h2 : c = '-'
      · subst h2; right; exact ⟨'-', Or.inr rfl, rfl⟩
      · left
        unfold readSign
        split
        · rename_i heq; injection heq with e _; exact absurd e h1
        · rename_i heq; injection heq with e _; exact absurd e h2
        · rfl

theorem numChar_of_readSign (s : List Char) (h : ∀ c ∈ (readSign s).2, IsNumChar c) :
    ∀ c ∈ s, IsNumChar c := by
  rcases readSign_spec s with e | ⟨c0, hc0, e⟩
  · rw [e] at h; exact h
  · intro c hc
    rw [e] at hc
    rcases List.mem_cons.mp hc with rfl | hc
    · rcases hc0 with rfl | rfl
      · exact Or.inr (Or.inl rfl)
      · exact Or.inr (Or.inr (Or.inl rfl))
    · exact h c hc

theorem numChar_of_span (s : List Char) (h : ∀ c ∈ s.dropWhile Char.isDigit, IsNumChar c) :
    ∀ c ∈ s, IsNumChar c := by
  intro c hc
  rw [← List.takeWhile_append_dropWhile Char.isDigit s] at hc
  rcases List.mem_append.mp hc with hc | hc
  · exact Or.inl (List.mem_takeWhile_imp hc)
  · exact h c hc

theorem numChar_of_readFraction (s : List Char)
    (h : ∀ c ∈ (readFraction s).2, IsNumChar c) : ∀ c ∈ s, IsNumChar c := by
  cases s with
  | nil => intro c hc; simp at hc
  | cons c0 t =>
    by_cases h0 : c0 = '.'
    · subst h0
      have e : readFraction ('.' :: t) = (t.takeWhile Char.isDigit, t.dropWhile Char.isDigit) :=
        rfl
      rw [e] at h
      intro c hc
      rcases List.mem_cons.mp hc with rfl | hc
      · exact Or.inr (Or.inr (Or.inr (Or.inl rfl)))
      · exact numChar_of_span t h c hc
    · have e : readFraction (c0 :: t) = ([], c0 :: t) := by
        unfold readFraction
        split
        · rename_i heq; injection heq with e _; exact absurd e h0
        · rfl
      rw [e] at h
      exact h

theorem numChar_of_readExponent (s : List Char) (e : Int) (h : readExponent s = some e) :
    ∀ c ∈ s, IsNumChar c := by
  cases s with
  | nil => intro c hc; simp at hc
  | cons c0 t =>
    unfold readExponent at h
    simp only at h
    by_cases h0 : c0 = 'e' ∨ c0 = 'E'
    · rw [if_pos h0] at h
      by_cases hd : ((readSign t).2.isEmpty || !(readSign t).2.all Char.isDigit) = true
      · rw [if_pos hd] at h; exact absurd h (by simp)
      · have hall : (readSign t).2.all Char.isDigit = true := by
          simp only [Bool.or_eq_true, Bool.not_eq_true', not_or, Bool.not_eq_false] at hd
          exact hd.2
        intro c hc
        rcases List.mem_cons.mp hc with rfl | hc
        · rcases h0 with rfl | rfl
          · exact Or.inr (Or.inr (Or.inr (Or.inr (Or.inl rfl))))
          · exact Or.inr (Or.inr (Or.inr (Or.inr (Or.inr rfl))))
        · refine numChar_of_readSign t (fun c hc => Or.inl ?_) c hc
          exact List.all_eq_true.mp hall c hc
    · rw [if_neg h0] at h; exact absurd h (by simp)

theorem numChar_of_readFloat (s : List Char) (r : Bool × Nat × Int)
    (h : readFloat s = some r) : ∀ c ∈ s, IsNumChar c := by
  apply numChar_of_readSign
  apply numChar_of_span
  apply numChar_of_readFraction
  unfold readFloat at h
  simp only at h
  split at h
  · exact absurd h (by simp)
  · split at h
    · exact absurd h (by simp)
    · rename_i e he
      exact numChar_of_readExponent _ e he

theorem at_not_numChar : ¬ IsNumChar '@' := by
  unfold IsNumChar; decide

theorem not_mem_of_special (s : List Char) (v : F64) (h : special s = some v) : '@' ∉ s := by
  intro hmem
  have hl : '@' ∈ s.map Char.toLower := List.mem_map.mpr ⟨'@', hmem, by decide⟩
  unfold special at h
  simp only at h
  split at h
  · rename_i e; rw [e] at hl; revert hl; decide
  · split at h
    · rename_i e
      rcases e with e | e | e | e <;> (rw [e] at hl; revert hl; decide)
    · split at h
      · rename_i e
        rcases e with e | e <;> (rw [e] at hl; revert hl; decide)
      · exact absurd h (by simp)

/-- A string that `ParseFloat` accepts contains no `@`. -/
theorem not_mem_of_ParseFloat (s : List Char) (f : F64) (h : ParseFloat s = .ok f) :
    '@' ∉ s := by
  unfold ParseFloat at h
  cases hs : special s with
  | some v => exact not_mem_of_special s v hs
  | none =>
    rw [hs] at h
    simp only at h
    cases hr : readFloat s with
    | none => rw [hr] at h; exact absurd h (by simp)
    | some r =>
      intro hmem
      exact at_not_numChar (numChar_of_readFloat s r hr '@' hmem)

/-- The malformed names that `IsMagnified` does treat as unmagnified: those without
exactly one `@`, those whose text after the `@` is not empty and does not end in
`x`, and those whose text between `@` and the final `x` `ParseFloat` rejects. -/
theorem isMagnified_malformed (name : String) :
    ((Split name.data '@').length ≠ 2 →
      IsMagnified name = some (false, name, F64.ofInt 1)) ∧
    (∀ (b fs : List Char) (c : Char), Split name.data '@' = [b, fs] → fs.getLast? = some c →
      c ≠ 'x' → IsMagnified name = some (false, name, F64.ofInt 1)) ∧
    (∀ (b fs : List Char) (e : NumError), Split name.data '@' = [b, fs] →
      fs.getLast? = some 'x' → ParseFloat fs.dropLast = .error e →
      IsMagnified name = some (false, name, F64.ofInt 1)) ∧
    (∀ b : List Char, Split name.data '@' = [b, []] → IsMagnified name = none) := by
  refine ⟨?_, ?_, ?_, ?_⟩
  · intro hlen
    unfold IsMagnified
    split
    · rename_i hs; rw [hs] at hlen; simp at hlen
    · rfl
  · intro b fs c hs hl hc
    unfold IsMagnified
    rw [hs]
    simp only [hl, if_neg hc]
  · intro b fs e hs hl he
    unfold IsMagnified
    rw [hs]
    simp only [hl, he, if_true]
  · intro b hs
    unfold IsMagnified
    rw [hs]
    rfl

namespace F64

theorem excessBits_fold_inv (q : Nat) (l : List Nat) (sh : Nat) (h : 2 ^ 53 ≤ q / 2 ^ sh) :
    2 ^ 53 ≤ q / 2 ^ (l.foldl (fun sh j => if 2 ^ 53 ≤ q / 2 ^ (sh + j) then sh + j else sh) sh) := by
  induction l generalizing sh with
  | nil => exact h
  | cons j l ih =>
    simp only [List.foldl_cons]
    apply ih
    split
    · assumption
    · exact h

theorem excessBits_le (q j : Nat) (h : q < 2 ^ (53 + j)) : excessBits q ≤ j := by
  unfold excessBits
  split
  · exact Nat.zero_le _
  · rename_i hq
    have hinv := excessBits_fold_inv q [1024, 512, 256, 128, 64, 32, 16, 8, 4, 2, 1] 0
      (by simpa using Nat.le_of_not_lt hq)
    generalize List.foldl (fun sh j => if 2 ^ 53 ≤ q / 2 ^ (sh + j) then sh + j else sh) 0
      [1024, 512, 256, 128, 64, 32, 16, 8, 4, 2, 1] = sh at hinv ⊢
    have h1 : 2 ^ 53 * 2 ^ sh ≤ q := (Nat.le_div_iff_mul_le (Nat.pow_pos (by decide))).mp hinv
    have h2 : 2 ^ 53 * 2 ^ sh < 2 ^ 53 * 2 ^ j := by
      rw [Nat.pow_add] at h; exact lt_of_le_of_lt h1 h
    have h3 : 2 ^ sh < 2 ^ j := Nat.lt_of_mul_lt_mul_left h2
    have h4 : sh < j := (Nat.pow_lt_pow_iff_right (by decide : 1 < 2)).mp h3
    omega

theorem roundHalfEven_exact (m b : Nat) (hb : 0 < b) : roundHalfEven (m * b) b = m := by
  unfold roundHalfEven
  simp only [Nat.mul_mod_left, Nat.mul_zero, hb, if_true, Nat.mul_div_cancel _ hb]

theorem roundMag_exact (m j k : Nat) (hk : 0 < k) (hm : m < 2 ^ 53) :
    roundMag (m * 2 ^ j * k) k = m * 2 ^ j := by
  unfold roundMag
  simp only [Nat.mul_div_cancel _ hk]
  have hsh : excessBits (m * 2 ^ j) ≤ j := by
    apply excessBits_le
    rw [Nat.pow_add]
    exact Nat.mul_lt_mul_of_lt_of_le hm (le_refl _) (Nat.pow_pos (by decide))
  generalize excessBits (m * 2 ^ j) = sh at hsh
  have hu : 2 ^ j = 2 ^ (j - sh) * 2 ^ sh := by
    rw [← Nat.pow_add]; congr 1; omega
  have ha : m * 2 ^ j * k = (m * 2 ^ (j - sh)) * (k * 2 ^ sh) := by
    rw [hu]; ring
  rw [ha, roundHalfEven_exact _ _ (Nat.mul_pos hk (Nat.pow_pos (by decide))), hu]
  ring

theorem round_exact (neg : Bool) (m j k : Nat) (hk : 0 < k) (hm : m < 2 ^ 53)
    (hlt : m * 2 ^ j < 2 ^ 2098) :
    round neg (m * 2 ^ j * k) k
      = fin (if neg then -((m * 2 ^ j : Nat) : Int) else (m * 2 ^ j : Nat)) := by
  unfold round
  simp only [Nat.mul_div_cancel _ hk, roundMag_exact m j k hk hm, Nat.not_le.mpr hlt, if_false]

/-- When the exact quotient of two finite values, the divisor not 0, is a float64,
the float64 division returns it. -/
theorem div_fin_exact (x k r : Int) (hk : k ≠ 0) (hr : IsFloat64 (fin r))
    (h : x * unit = r * k) : div (fin x) (fin k) = fin r := by
  obtain ⟨m, j, hm, hmj, hlt⟩ := hr
  have hu := unit_pos_int
  have hkpos : 0 < k.natAbs := Int.natAbs_pos.mpr hk
  have ha : x.natAbs * unit = m * 2 ^ j * k.natAbs := by
    have h1 : (x * unit).natAbs = (r * k).natAbs := by rw [h]
    rw [Int.natAbs_mul, Int.natAbs_mul, hmj] at h1
    simpa using h1
  have hxz : x = 0 ↔ r = 0 := by
    constructor
    · intro hx
      rw [hx, zero_mul] at h
      rcases mul_eq_zero.mp h.symm with h0 | h0
      · exact h0
      · exact absurd h0 hk
    · intro hr0
      rw [hr0, zero_mul] at h
      rcases mul_eq_zero.mp h with h0 | h0
      · exact h0
      · exact absurd h0 unit_ne_zero_int
  have hxs : x < 0 ↔ x * unit < 0 := by
    constructor
    · intro hx; exact mul_neg_of_neg_of_pos hx hu
    · intro hx
      by_contra hc
      have := mul_nonneg (not_lt.mp hc) hu.le
      omega
  unfold div
  simp only [hk, if_false]
  rw [ha, round_exact _ m j _ hkpos hm (hmj ▸ hlt), ← hmj]
  congr 1
  rcases lt_trichotomy r 0 with hr0 | hr0 | hr0
  · have hzk : x < 0 ↔ ¬ k < 0 := by
      rw [hxs, h]
      constructor
      · intro hlt hk0
        have := mul_pos_of_neg_of_neg hr0 hk0
        omega
      · intro hk0
        have hk1 : 0 < k := by omega
        exact mul_neg_of_neg_of_pos hr0 hk1
    have hneg : (decide (x < 0) != decide (k < 0)) = true := by
      by_cases hk0 : k < 0
      · have : ¬ x < 0 := fun hc => (hzk.mp hc) hk0
        simp [hk0, this]
      · have := hzk.mpr hk0
        simp [hk0, this]
    rw [hneg, if_pos rfl, Int.natCast_natAbs, abs_of_neg hr0, neg_neg]
  · subst hr0; simp
  · have hzk : x < 0 ↔ k < 0 := by
      rw [hxs, h]
      constructor
      · intro hlt
        by_contra hk0
        have hk1 : 0 ≤ k := by omega
        have := mul_nonneg hr0.le hk1
        omega
      · intro hk0
        exact mul_neg_of_pos_of_neg hr0 hk0
    have hneg : (decide (x < 0) != decide (k < 0)) = false := by
      by_cases hk0 : k < 0
      · have := hzk.mpr hk0
        simp [hk0, this]
      · have : ¬ x < 0 := fun hc => hk0 (hzk.mp hc)
        simp [hk0, this]
    rw [hneg]
    simp only [Bool.false_eq_true, if_false]
    rw [Int.natCast_natAbs, abs_of_pos hr0]

theorem bisect_spec (P : Nat → Prop) [DecidablePred P] (l : List Nat) (w sh : Nat)
    (hl : Halves l w) (h0 : P sh) (h1 : ¬ P (sh + w)) :
    P (l.foldl (fun sh j => if P (sh + j) then sh + j else sh) sh) ∧
    ¬ P (l.foldl (fun sh j => if P (sh + j) then sh + j else sh) sh + 1) := by
  induction l generalizing w sh with
  | nil =>
    simp only [Halves] at hl
    subst hl
    exact ⟨h0, h1⟩
  | cons j l ih =>
    obtain ⟨hw, hl'⟩ := hl
    simp only [List.foldl_cons]
    by_cases hp : P (sh + j)
    · rw [if_pos hp]
      apply ih j (sh + j) hl' hp
      have : sh + j + j = sh + w := by omega
      rw [this]; exact h1
    · rw [if_neg hp]
      exact ih j sh hl' h0 hp

theorem excessBits_spec (q : Nat) (h1 : 2 ^ 53 ≤ q) (h2 : q < 2 ^ 2101) :
    1 ≤ excessBits q ∧ q / 2 ^ excessBits q < 2 ^ 53 ∧
      2 ^ 53 ≤ q / 2 ^ (excessBits q - 1) := by
  unfold excessBits
  rw [if_neg (Nat.not_lt.mpr h1)]
  have hl : Halves [1024, 512, 256, 128, 64, 32, 16, 8, 4, 2, 1] 2048 := by
    simp [Halves]
  have hP0 : 2 ^ 53 ≤ q / 2 ^ 0 := by simpa using h1
  have hP1 : ¬ 2 ^ 53 ≤ q / 2 ^ (0 + 2048) := by
    rw [Nat.not_le, Nat.div_lt_iff_lt_mul (Nat.pow_pos (by decide)), ← Nat.pow_add]
    exact h2
  have := bisect_spec (fun s => 2 ^ 53 ≤ q / 2 ^ s) _ 2048 0 hl hP0 hP1
  simp only [Nat.zero_add] at this
  generalize List.foldl (fun sh j => if 2 ^ 53 ≤ q / 2 ^ (sh + j) then sh + j else sh) 0
    [1024, 512, 256, 128, 64, 32, 16, 8, 4, 2, 1] = t at this ⊢
  refine ⟨by omega, Nat.not_le.mp this.2, ?_⟩
  simpa using this.1

/-- The result of `roundHalfEven a b` is a nearest integer to `a / b`. -/
theorem roundHalfEven_nearest (a b : Nat) (hb : 0 < b) (t : Nat) :
    |((roundHalfEven a b * b : Nat) : Int) - a| ≤ |((t * b : Nat) : Int) - a| := by
  have hdm : a = (a / b) * b + a % b := by
    have := Nat.div_add_mod a b
    rw [Nat.mul_comm] at this
    omega
  have hr : a % b < b := Nat.mod_lt _ hb
  have hq1 : (a / b + 1) * b = (a / b) * b + b := Nat.succ_mul _ _
  have ht : t ≤ a / b → t * b ≤ (a / b) * b := fun h => Nat.mul_le_mul_right _ h
  have ht' : a / b + 1 ≤ t → (a / b + 1) * b ≤ t * b := fun h => Nat.mul_le_mul_right _ h
  unfold roundHalfEven
  simp only
  generalize a / b = q at *
  generalize a % b = r at *
  generalize hX : q * b = X at *
  generalize hT : t * b = T at *
  generalize hY : (q + 1) * b = Y at *
  rcases Nat.lt_or_ge t (q + 1) with hlt | hge
  · have h1 := ht (by omega)
    split_ifs <;> simp only [hX, hY] <;> rw [abs_le] <;> constructor <;>
      (rcases abs_cases ((T : Int) - a) with ⟨h, _⟩ | ⟨h, _⟩ <;> rw [h] <;> omega)
  · have h1 := ht' hge
    split_ifs <;> simp only [hX, hY] <;> rw [abs_le] <;> constructor <;>
      (rcases abs_cases ((T : Int) - a) with ⟨h, _⟩ | ⟨h, _⟩ <;> rw [h] <;> omega)

theorem roundHalfEven_le (a b : Nat) : roundHalfEven a b ≤ a / b + 1 := by
  unfold roundHalfEven
  simp only
  split_ifs <;> omega

/-- The magnitude `roundMag a b` has at most 53 significant bits. -/
theorem roundMag_repr (a b : Nat) (hq : a / b < 2 ^ 2101) :
    ∃ m j : Nat, m < 2 ^ 53 ∧ roundMag a b = m * 2 ^ j := by
  have key : ∀ n sh : Nat, n ≤ 2 ^ 53 → ∃ m j : Nat, m < 2 ^ 53 ∧ n * 2 ^ sh = m * 2 ^ j := by
    intro n sh hn
    rcases Nat.lt_or_ge n (2 ^ 53) with h | h
    · exact ⟨n, sh, h, rfl⟩
    · have : n = 2 ^ 53 := Nat.le_antisymm hn h
      exact ⟨1, 53 + sh, by decide, by rw [this, Nat.pow_add]; ring⟩
  unfold roundMag
  simp only
  apply key
  rcases Nat.lt_or_ge (a / b) (2 ^ 53) with h | h
  · have hsh : excessBits (a / b) = 0 := by unfold excessBits; rw [if_pos h]
    rw [hsh, Nat.pow_zero, Nat.mul_one]
    have := roundHalfEven_le a b
    omega
  · obtain ⟨-, hlt, -⟩ := excessBits_spec (a / b) h hq
    have := roundHalfEven_le a (b * 2 ^ excessBits (a / b))
    rw [← Nat.div_div_eq_div_mul] at this
    omega

/-- No magnitude with at most 53 significant bits is nearer to `a / b` than
`roundMag a b`. -/
theorem roundMag_nearest (a b : Nat) (hb : 0 < b) (hq : a / b < 2 ^ 2101) (m j : Nat)
    (hm : m < 2 ^ 53) :
    |((roundMag a b * b : Nat) : Int) - a| ≤ |((m * 2 ^ j * b : Nat) : Int) - a| := by
  unfold roundMag
  simp only
  rcases Nat.lt_or_ge (a / b) (2 ^ 53) with h | h
  · have hsh : excessBits (a / b) = 0 := by unfold excessBits; rw [if_pos h]
    rw [hsh, Nat.pow_zero, Nat.mul_one, Nat.mul_one]
    exact roundHalfEven_nearest a b hb (m * 2 ^ j)
  · obtain ⟨hsh1, -, hge⟩ := excessBits_spec (a / b) h hq
    generalize excessBits (a / b) = sh at hsh1 hge ⊢
    have hB : 0 < b * 2 ^ sh := Nat.mul_pos hb (Nat.pow_pos (by decide))
    have e1 : roundHalfEven a (b * 2 ^ sh) * 2 ^ sh * b
        = roundHalfEven a (b * 2 ^ sh) * (b * 2 ^ sh) := by ring
    rw [e1]
    rcases Nat.lt_or_ge j sh with hj | hj
    · -- a finer grid: the value lies below `2^(52+sh)`, which is not above `a / b`
      have h1 : 2 ^ 53 * 2 ^ (sh - 1) ≤ a / b :=
        (Nat.le_div_iff_mul_le (Nat.pow_pos (by decide))).mp hge
      have h2 : 2 ^ 53 * 2 ^ (sh - 1) * b ≤ a :=
        (Nat.le_div_iff_mul_le hb).mp h1
      have h3 : (2 : Nat) ^ 53 * 2 ^ (sh - 1) = 2 ^ 52 * 2 ^ sh := by
        rw [← Nat.pow_add, ← Nat.pow_add]; congr 1; omega
      have h4 : 2 ^ 52 * (b * 2 ^ sh) ≤ a := by
        have : 2 ^ 52 * (b * 2 ^ sh) = 2 ^ 53 * 2 ^ (sh - 1) * b := by rw [h3]; ring
        omega
      have h5 : m * 2 ^ j ≤ 2 ^ 52 * 2 ^ sh := by
        have hj' : 2 ^ j ≤ 2 ^ (sh - 1) := Nat.pow_le_pow_right (by decide) (by omega)
        calc m * 2 ^ j ≤ 2 ^ 53 * 2 ^ (sh - 1) := Nat.mul_le_mul hm.le hj'
          _ = 2 ^ 52 * 2 ^ sh := h3
      have h6 : m * 2 ^ j * b ≤ 2 ^ 52 * (b * 2 ^ sh) := by
        calc m * 2 ^ j * b ≤ 2 ^ 52 * 2 ^ sh * b := Nat.mul_le_mul_right _ h5
          _ = 2 ^ 52 * (b * 2 ^ sh) := by ring
      have hn := roundHalfEven_nearest a (b * 2 ^ sh) hB (2 ^ 52)
      generalize roundHalfEven a (b * 2 ^ sh) * (b * 2 ^ sh) = N at hn ⊢
      generalize 2 ^ 52 * (b * 2 ^ sh) = T at hn h4 h6
      generalize m * 2 ^ j * b = G at h6 ⊢
      rw [abs_le] at hn ⊢
      rcases abs_cases ((T : Int) - a) with ⟨ht, _⟩ | ⟨ht, _⟩ <;>
        rcases abs_cases ((G : Int) - a) with ⟨hg, _⟩ | ⟨hg, _⟩ <;>
        rw [ht] at hn <;> rw [hg] <;> constructor <;> omega
    · have e2 : m * 2 ^ j * b = (m * 2 ^ (j - sh)) * (b * 2 ^ sh) := by
        have : 2 ^ j = 2 ^ (j - sh) * 2 ^ sh := by
          rw [← Nat.pow_add]; congr 1; omega
        rw [this]; ring
      rw [e2]
      exact roundHalfEven_nearest a (b * 2 ^ sh) hB _

theorem abs_signed (sx sy M A B g : Int) (hsx : sx = 1 ∨ sx = -1) (hsy : sy = 1 ∨ sy = -1)
    (hA : 0 ≤ A) (hB : 0 ≤ B) :
    |(sx * sy * M) * (sy * B) - sx * A| = |M * B - A| ∧
    |(|g|) * B - A| ≤ |g * (sy * B) - sx * A| := by
  have hgB : 0 ≤ |g| * B := mul_nonneg (abs_nonneg g) hB
  have key : ∀ t : Int, (t = |g| ∨ t = -|g|) → |(|g|) * B - A| ≤ |t * B - A| := by
    intro t ht
    rcases ht with rfl | rfl
    · exact le_refl _
    · rw [abs_le]
      have e : -|g| * B - A = -(|g| * B + A) := by ring
      rw [e, abs_neg, abs_of_nonneg (by omega)]
      constructor <;> omega
  have hg : ∀ s : Int, (s = 1 ∨ s = -1) → (s * g = |g| ∨ s * g = -|g|) := by
    intro s hs
    rcases hs with rfl | rfl <;> rcases abs_cases g with ⟨h, _⟩ | ⟨h, _⟩ <;> rw [h] <;> simp
  constructor
  · rcases hsx with rfl | rfl <;> rcases hsy with rfl | rfl
    · congr 1; ring
    · congr 1; ring
    · rw [← abs_neg]; congr 1; ring
    · rw [← abs_neg]; congr 1; ring
  · have hss : sx * sy = 1 ∨ sx * sy = -1 := by
      rcases hsx with rfl | rfl <;> rcases hsy with rfl | rfl <;> simp
    have h1 := key (sx * sy * g) (hg (sx * sy) hss)
    have e : |g * (sy * B) - sx * A| = |sx * sy * g * B - A| := by
      rcases hsx with rfl | rfl <;> rcases hsy with rfl | rfl
      · congr 1; ring
      · congr 1; ring
      · rw [← abs_neg]; congr 1; ring
      · rw [← abs_neg]; congr 1; ring
    rw [e]; exact h1

/-- The quotient computed by `div` for finite operands, when finite, is a float64
and no float64 is nearer to the exact quotient (distances scaled by `|y| * 2^1074`). -/
theorem div_fin_nearest (x y r : Int) (hy : y ≠ 0) (hr : div (fin x) (fin y) = fin r) :
    IsFloat64 (fin r) ∧
    ∀ g : Int, IsFloat64 (fin g) → |r * y - x * unit| ≤ |g * y - x * unit| := by
  have hb : 0 < y.natAbs := Int.natAbs_pos.mpr hy
  unfold div at hr
  simp only [hy, if_false] at hr
  unfold round at hr
  split at hr
  · exact absurd hr (by simp)
  · rename_i hq
    simp only at hr
    split at hr
    · exact absurd hr (by simp)
    · rename_i hm
      have hq' : x.natAbs * unit / y.natAbs < 2 ^ 2101 := by
        have : (2 : Nat) ^ 2098 ≤ 2 ^ 2101 := Nat.pow_le_pow_right (by decide) (by decide)
        omega
      injection hr with hr
      have hnat : r.natAbs = roundMag (x.natAbs * unit) y.natAbs := by
        rw [← hr]; split <;> simp
      constructor
      · obtain ⟨m, j, hmj, e⟩ := roundMag_repr (x.natAbs * unit) y.natAbs hq'
        exact ⟨m, j, hmj, by rw [hnat, e], by rw [hnat]; omega⟩
      · intro g hg
        obtain ⟨m, j, hmj, e, -⟩ := hg
        have hn := roundMag_nearest (x.natAbs * unit) y.natAbs hb hq' m j hmj
        rw [← e] at hn
        push_cast at hn
        -- signs
        have hsx : (if x < 0 then (-1 : Int) else 1) = 1 ∨ (if x < 0 then (-1 : Int) else 1) = -1 := by
          split <;> simp
        have hsy : (if y < 0 then (-1 : Int) else 1) = 1 ∨ (if y < 0 then (-1 : Int) else 1) = -1 := by
          split <;> simp
        have hx : x = (if x < 0 then (-1 : Int) else 1) * |x| := by
          split
          · rw [abs_of_neg (by assumption)]; ring
          · rw [abs_of_nonneg (by omega)]; ring
        have hyy : y = (if y < 0 then (-1 : Int) else 1) * |y| := by
          split
          · rw [abs_of_neg (by assumption)]; ring
          · rw [abs_of_nonneg (by omega)]; ring
        have hrr : r = (if x < 0 then (-1 : Int) else 1) * (if y < 0 then (-1 : Int) else 1)
            * (roundMag (x.natAbs * unit) y.natAbs : Int) := by
          rw [← hr]
          by_cases h1 : x < 0 <;> by_cases h2 : y < 0 <;> simp [h1, h2]
        have hA : (0 : Int) ≤ |x| * unit := mul_nonneg (abs_nonneg x) unit_pos_int.le
        obtain ⟨h1, h2⟩ := abs_signed _ _ (roundMag (x.natAbs * unit) y.natAbs : Int)
          (|x| * unit) |y| g hsx hsy hA (abs_nonneg y)
        have e1 : r * y - x * unit
            = (if x < 0 then (-1 : Int) else 1) * (if y < 0 then (-1 : Int) else 1)
              * (roundMag (x.natAbs * unit) y.natAbs : Int)
              * ((if y < 0 then (-1 : Int) else 1) * |y|)
              - (if x < 0 then (-1 : Int) else 1) * (|x| * unit) := by
          rw [← hrr, ← hyy]
          have : (if x < 0 then (-1 : Int) else 1) * (|x| * unit) = x * unit := by
            rw [← mul_assoc, ← hx]
          rw [this]
        have e2 : g * y - x * unit
            = g * ((if y < 0 then (-1 : Int) else 1) * |y|)
              - (if x < 0 then (-1 : Int) else 1) * (|x| * unit) := by
          rw [← hyy]
          have : (if x < 0 then (-1 : Int) else 1) * (|x| * unit) = x * unit := by
            rw [← mul_assoc, ← hx]
          rw [this]
        rw [e1, e2, h1]
        calc |(roundMag (x.natAbs * unit) y.natAbs : Int) * |y| - |x| * unit|
            ≤ |(|g|) * |y| - |x| * unit| := hn
          _ ≤ _ := h2

theorem isFloat64_ofInt (z : Int) (hz : |z| < 2 ^ 53) : IsFloat64 (ofInt z) := by
  have hz' : z.natAbs < 2 ^ 53 := by
    have : ((z.natAbs : Nat) : Int) < 2 ^ 53 := by
      rw [Int.natCast_natAbs]; exact hz
    exact_mod_cast this
  refine ⟨z.natAbs, 1074, hz', ?_, ?_⟩
  · rw [Int.natAbs_mul]; rfl
  · rw [Int.natAbs_mul]
    have h1 : z.natAbs * (unit : Int).natAbs < 2 ^ 53 * 2 ^ 1074 :=
      Nat.mul_lt_mul_of_lt_of_le hz' (le_refl _) (Nat.pow_pos (by decide))
    have h2 : (2 : Nat) ^ 53 * 2 ^ 1074 ≤ 2 ^ 2098 := by
      rw [← Nat.pow_add]; exact Nat.pow_le_pow_right (by decide) (by decide)
    omega

end F64

/-- When the exact quotient of the integer `v` by a finite non-zero factor is a
float64 `g`, the float64 quotient `float64(v) / factor` is `g`. -/
theorem div_exact (v : Int) (f g : F64) (hfin : f.IsFinite) (hne : f.toRat ≠ 0)
    (hg : g.IsFinite) (hg64 : g.IsFloat64) (h : (v : ℚ) = g.toRat * f.toRat) :
    F64.div (F64.ofInt v) f = g := by
  have hu : ((unit : Nat) : ℚ) ≠ 0 := by exact_mod_cast unit_pos.ne'
  cases f with
  | inf b => exact hfin.elim
  | nan => exact hfin.elim
  | fin k =>
    cases g with
    | inf b => exact hg.elim
    | nan => exact hg.elim
    | fin r =>
      have hk : k ≠ 0 := by
        intro h0; apply hne; simp [F64.toRat, h0]
      have h2 : v * unit * unit = r * k := by
        unfold F64.toRat at h
        have h3 : ((v * unit * unit : Int) : ℚ) = ((r * k : Int) : ℚ) := by
          push_cast
          rw [h]; field_simp; ring
        exact_mod_cast h3
      exact F64.div_fin_exact (v * unit) k r hk hg64 h2

/-- The float64 quotient `float64(v) / factor` by a finite non-zero factor, when
finite, is a float64 nearest to the exact quotient. -/
theorem div_nearest (v : Int) (f : F64) (hfin : f.IsFinite) (hne : f.toRat ≠ 0)
    (hr : (F64.div (F64.ofInt v) f).IsFinite) :
    F64.IsNearest (F64.div (F64.ofInt v) f) ((v : ℚ) / f.toRat) := by
  have hu : (0 : ℚ) < (unit : ℚ) := by exact_mod_cast unit_pos
  cases f with
  | inf b => exact hfin.elim
  | nan => exact hfin.elim
  | fin k =>
    have hk : k ≠ 0 := by
      intro h0; apply hne; simp [F64.toRat, h0]
    have hkq : (k : ℚ) ≠ 0 := by exact_mod_cast hk
    cases hd : F64.div (F64.ofInt v) (F64.fin k) with
    | inf b => rw [hd] at hr; exact hr.elim
    | nan => rw [hd] at hr; exact hr.elim
    | fin r =>
      obtain ⟨h64, hn⟩ := F64.div_fin_nearest (v * unit) k r hk hd
      have key : ∀ t : Int, (F64.fin t).toRat - (v : ℚ) / (F64.fin k).toRat
          = ((t * k - v * unit * unit : Int) : ℚ) / ((unit : ℚ) * k) := by
        intro t
        unfold F64.toRat
        push_cast
        field_simp
        ring
      refine ⟨h64, ?_⟩
      intro g hg hg64
      cases g with
      | inf b => exact hg.elim
      | nan => exact hg.elim
      | fin t =>
        rw [key r, key t, abs_div, abs_div]
        apply div_le_div_of_nonneg_right _ (abs_nonneg _)
        have := hn t hg64
        exact_mod_cast this

namespace F64

theorem natAbs_mul_unit (n : Int) : (n * unit).natAbs = n.natAbs * unit := by
  rw [Int.natAbs_mul]; rfl

/-- The conversion `float64(n)` is exact when `n` has at most 53 significant bits. -/
theorem fromInt_of_isFloat64 (n : Int) (h : IsFloat64 (ofInt n)) : fromInt n = ofInt n := by
  obtain ⟨m, j, hm, e, hlt⟩ := h
  rw [natAbs_mul_unit] at e hlt
  unfold fromInt ofInt
  have hr := round_exact (decide (n < 0)) m j 1 (by decide) hm (e ▸ hlt)
  rw [Nat.mul_one] at hr
  rw [e, hr, ← e]
  congr 1
  by_cases h : n < 0
  · simp only [h, decide_True, if_true]
    push_cast
    rw [abs_of_neg h]
    ring
  · simp only [h, decide_False, Bool.false_eq_true, if_false]
    push_cast
    rw [abs_of_nonneg (by omega)]

theorem isFloat64_ofInt_le (z : Int) (hz : |z| ≤ 2 ^ 53) : IsFloat64 (ofInt z) := by
  rcases lt_or_eq_of_le hz with h | h
  · exact isFloat64_ofInt z h
  · have hz' : z.natAbs = 2 ^ 53 := by
      have : ((z.natAbs : Nat) : Int) = 2 ^ 53 := by
        rw [Int.natCast_natAbs]; exact h
      exact_mod_cast this
    refine ⟨1, 53 + 1074, by decide, ?_, ?_⟩
    · rw [natAbs_mul_unit, hz', Nat.pow_add]; simp [unit]
    · rw [natAbs_mul_unit, hz', unit, ← Nat.pow_add]
      exact Nat.pow_lt_pow_right (by decide) (by decide)

/-- The conversion `float64(n)` is exact up to `2^53` in magnitude. -/
theorem fromInt_small (n : Int) (h : |n| ≤ 2 ^ 53) : fromInt n = ofInt n :=
  fromInt_of_isFloat64 n (isFloat64_ofInt_le n h)

/-- The conversion `float64(n)` of an `int` is an integer-valued float64. -/
theorem fromInt_integer (n : Int) (h : n.natAbs ≤ 2 ^ 63) : ∃ z : Int, fromInt n = ofInt z := by
  have hu : unit = 2 ^ 1074 := rfl
  have ha : n.natAbs * unit < 2 ^ (53 + 1085) := by
    have h1 : n.natAbs * unit ≤ 2 ^ 63 * 2 ^ 1074 := Nat.mul_le_mul_right _ h
    have h2 : (2 : Nat) ^ 63 * 2 ^ 1074 < 2 ^ (53 + 1085) := by
      rw [← Nat.pow_add]; exact Nat.pow_lt_pow_right (by decide) (by decide)
    rw [hu] at h1 ⊢; omega
  have hsh := excessBits_le _ _ ha
  have key : ∃ t : Nat, roundMag (n.natAbs * unit) 1 = t * unit ∧
      roundMag (n.natAbs * unit) 1 < 2 ^ 2098 := by
    unfold roundMag
    simp only [Nat.div_one, Nat.one_mul]
    generalize excessBits (n.natAbs * unit) = sh at hsh
    rcases Nat.le_total sh 1074 with hle | hge
    · have e : n.natAbs * unit = (n.natAbs * 2 ^ (1074 - sh)) * 2 ^ sh := by
        rw [hu, Nat.mul_assoc, ← Nat.pow_add]; congr 2; omega
      rw [e, roundHalfEven_exact _ _ (Nat.pow_pos (by decide)), ← e]
      refine ⟨n.natAbs, rfl, ?_⟩
      have : (2 : Nat) ^ (53 + 1085) ≤ 2 ^ 2098 := Nat.pow_le_pow_right (by decide) (by decide)
      omega
    · have e : (2 : Nat) ^ sh = 2 ^ (sh - 1074) * unit := by
        rw [hu, ← Nat.pow_add]; congr 1; omega
      refine ⟨roundHalfEven (n.natAbs * unit) (2 ^ sh) * 2 ^ (sh - 1074), ?_, ?_⟩
      · rw [Nat.mul_assoc, ← e]
      · have h1 := roundHalfEven_le (n.natAbs * unit) (2 ^ sh)
        have h2 : n.natAbs * unit / 2 ^ sh * 2 ^ sh ≤ n.natAbs * unit := Nat.div_mul_le_self _ _
        have h3 : (2 : Nat) ^ sh ≤ 2 ^ 1085 := Nat.pow_le_pow_right (by decide) hsh
        have h4 : roundHalfEven (n.natAbs * unit) (2 ^ sh) * 2 ^ sh
            ≤ (n.natAbs * unit / 2 ^ sh + 1) * 2 ^ sh := Nat.mul_le_mul_right _ h1
        have h5 : (n.natAbs * unit / 2 ^ sh + 1) * 2 ^ sh
            = n.natAbs * unit / 2 ^ sh * 2 ^ sh + 2 ^ sh := by ring
        have h6 : (2 : Nat) ^ (53 + 1085) + 2 ^ 1085 ≤ 2 ^ 2098 := by decide
        omega
  obtain ⟨t, ht, hlt⟩ := key
  have hlt0 : ¬ 2 ^ 2098 ≤ n.natAbs * unit / 1 := by
    have : (2 : Nat) ^ (53 + 1085) ≤ 2 ^ 2098 := Nat.pow_le_pow_right (by decide) (by decide)
    rw [Nat.div_one]; omega
  unfold fromInt round
  rw [if_neg hlt0]
  simp only
  rw [if_neg (Nat.not_le.mpr hlt), ht]
  by_cases hneg : n < 0
  · refine ⟨-(t : Int), ?_⟩
    simp only [hneg, decide_True, if_true, ofInt]
    congr 1; push_cast; ring
  · refine ⟨(t : Int), ?_⟩
    simp only [hneg, decide_False, Bool.false_eq_true, if_false, ofInt]
    congr 1

theorem Mod_ofInt_one (z : Int) : neZero (Mod (ofInt z) (ofInt 1)) = false := by
  unfold ofInt Mod
  simp only [one_mul, unit_ne_zero_int, if_false, neZero]
  rw [Int.mul_tmod_left]
  simp

/-- The ceiling of a float64 is a float64. -/
theorem isFloat64_Ceil (k : Int) (h : IsFloat64 (fin k)) : IsFloat64 (Ceil (fin k)) := by
  obtain ⟨m, j, hm, e, hlt⟩ := h
  have hu : unit = 2 ^ 1074 := rfl
  have hup := unit_pos_int
  rcases Nat.lt_or_ge j 1074 with hj | hj
  · -- below 2^52 in magnitude: the ceiling is at most 2^52 in magnitude
    rw [Ceil_fin]
    apply isFloat64_ofInt_le
    rw [ceil_toRat_fin]
    have hk : k.natAbs < 2 ^ 52 * unit := by
      rw [e, hu]
      have h1 : m * 2 ^ j ≤ 2 ^ 53 * 2 ^ j := Nat.mul_le_mul_right _ hm.le
      have h2 : (2 : Nat) ^ j ≤ 2 ^ 1073 := Nat.pow_le_pow_right (by decide) (by omega)
      have h3 : m * 2 ^ j < 2 ^ 53 * 2 ^ j :=
        Nat.mul_lt_mul_of_lt_of_le hm (le_refl _) (Nat.pow_pos (by decide))
      have h4 : (2 : Nat) ^ 53 * 2 ^ j ≤ 2 ^ 53 * 2 ^ 1073 := Nat.mul_le_mul_left _ h2
      have h5 : (2 : Nat) ^ 53 * 2 ^ 1073 = 2 ^ 52 * 2 ^ 1074 := by
        rw [← Nat.pow_add, ← Nat.pow_add]
      omega
    have hk' : |k| < 2 ^ 52 * (unit : Int) := by
      rw [← Int.natCast_natAbs]; exact_mod_cast hk
    have h1 := Int.ediv_mul_le (-k) unit_ne_zero_int
    have h2 := Int.lt_ediv_add_one_mul_self (-k) hup
    generalize (-k) / (unit : Int) = q at h1 h2 ⊢
    have hk1 := abs_lt.mp hk'
    have hq1 : q < 2 ^ 52 := by
      have : q * (unit : Int) < 2 ^ 52 * (unit : Int) := by omega
      exact lt_of_mul_lt_mul_right this hup.le
    have hq2 : -(2 ^ 52) < q + 1 := by
      have : -(2 ^ 52) * (unit : Int) < (q + 1) * (unit : Int) := by
        have : -(2 ^ 52) * (unit : Int) = -(2 ^ 52 * (unit : Int)) := by ring
        omega
      exact lt_of_mul_lt_mul_right this hup.le
    rw [abs_le]
    constructor <;> omega
  · -- an integer already
    have hdvd : (unit : Int) ∣ k := by
      have : unit ∣ k.natAbs := by
        rw [e, hu]
        exact Dvd.dvd.mul_left (Nat.pow_dvd_pow 2 hj) m
      exact Int.natCast_dvd.mpr this
    have : Ceil (fin k) = fin k := by
      unfold Ceil
      simp only
      congr 1
      rw [neg_mul, Int.ediv_mul_cancel ((Int.dvd_neg).mpr hdvd), neg_neg]
    rw [this]
    exact ⟨m, j, hm, e, hlt⟩

theorem round_isFloat64 (neg : Bool) (a b : Nat) (k : Int) (h : round neg a b = fin k) :
    IsFloat64 (fin k) := by
  unfold round at h
  split at h
  · exact absurd h (by simp)
  · rename_i hq
    simp only at h
    split at h
    · exact absurd h (by simp)
    · rename_i hm
      have hq' : a / b < 2 ^ 2101 := by
        have : (2 : Nat) ^ 2098 ≤ 2 ^ 2101 := Nat.pow_le_pow_right (by decide) (by decide)
        omega
      injection h with h
      have hnat : k.natAbs = roundMag a b := by
        rw [← h]; split <;> simp
      obtain ⟨m, j, hmj, e⟩ := roundMag_repr a b hq'
      exact ⟨m, j, hmj, by rw [hnat, e], by rw [hnat]; omega⟩

end F64

/-- What `ParseFloat` returns is a float64. -/
theorem isFloat64_of_ParseFloat (s : List Char) (f : F64) (h : ParseFloat s = .ok f) :
    f.IsFloat64 := by
  cases f with
  | inf b => trivial
  | nan => trivial
  | fin k =>
    unfold ParseFloat at h
    cases hs : special s with
    | some v =>
      rw [hs] at h
      simp only at h
      injection h with h
      subst h
      unfold special at hs
      simp only at hs
      split at hs
      · exact absurd hs (by simp)
      · split at hs
        · exact absurd hs (by simp)
        · split at hs
          · exact absurd hs (by simp)
          · exact absurd hs (by simp)
    | none =>
      rw [hs] at h
      simp only at h
      cases hr : readFloat s with
      | none => rw [hr] at h; exact absurd h (by simp)
      | some r =>
        obtain ⟨neg, mant, e⟩ := r
        rw [hr] at h
        simp only at h
        split at h
        · rename_i k' hk'
          injection h with h
          rw [← h]
          split at hk'
          · exact F64.round_isFloat64 _ _ _ _ hk'
          · exact F64.round_isFloat64 _ _ _ _ hk'
        · exact absurd h (by simp)

/-- The factor that `IsMagnified` returns is a float64. -/
theorem isFloat64_of_isMagnified (name : String) (isIt : Bool) (base : String) (f : F64)
    (h : IsMagnified name = some (isIt, base, f)) : f.IsFloat64 := by
  have hone : (F64.ofInt 1).IsFloat64 := F64.isFloat64_ofInt 1 (by norm_num)
  unfold IsMagnified at h
  split at h
  · split at h
    · exact absurd h (by simp)
    · split at h
      · split at h
        · injection h with h; injection h with _ h; injection h with _ h3
          rw [← h3]; exact hone
        · rename_i v hv
          injection h with h; injection h with _ h; injection h with _ h3
          rw [← h3]; exact isFloat64_of_ParseFloat _ _ hv
      · injection h with h; injection h with _ h; injection h with _ h3
        rw [← h3]; exact hone
  · injection h with h; injection h with _ h; injection h with _ h3
    rw [← h3]; exact hone

/-- The state after one iteration on an image whose name has a finite factor with a
ceiling in the range of `int`, after a sprite whose bottom padding converts
exactly. -/
theorem layoutStep_fin (st : LayoutState) (img : Image) (isIt : Bool) (name : String)
    (k : Int) (h : IsMagnified img.Name = some (isIt, name, F64.fin k))
    (hc : IsInt64 ⌈(F64.fin k).toRat⌉)
    (hlast : ∀ p, st.sprites.getLast? = some p →
      IsInt64 p.BottomPadding ∧ F64.fromInt p.BottomPadding = F64.ofInt p.BottomPadding) :
    layoutStep st img = some
      { sheetHeight := wrap64 (st.sheetHeight
          + wrap64 (img.Bounds.Dy + topPad st.sprites.getLast? (F64.fin k)))
        sheetWidth := max st.sheetWidth img.Bounds.Dx
        sprites := st.sprites ++
          [{ Name := name
             MagFactor := F64.fin k
             TopPadding := topPad st.sprites.getLast? (F64.fin k)
             BottomPadding := ⌈(F64.fin k).toRat⌉
             Rectangle := Rect 0
               (wrap64 (wrap64 (st.sheetHeight + topPad st.sprites.getLast? (F64.fin k))
                 - (if notMultiple img.Bounds.Dy (F64.fin k) then 1 else 0)))
               img.Bounds.Dx
               (wrap64 (wrap64 (st.sheetHeight + topPad st.sprites.getLast? (F64.fin k))
                 + img.Bounds.Dy)) }]
        log := st.log ++
          (if notMultiple img.Bounds.Dy (F64.fin k) then [⟨name, img.Bounds.Dy, F64.fin k⟩]
           else []) } := by
  have hw : (if img.Bounds.Dx > st.sheetWidth then img.Bounds.Dx else st.sheetWidth)
      = max st.sheetWidth img.Bounds.Dx := by
    split <;> omega
  have hlog : (if notMultiple img.Bounds.Dy (F64.fin k) = true
        then st.log ++ [(⟨name, img.Bounds.Dy, F64.fin k⟩ : Warning)] else st.log)
      = st.log ++ (if notMultiple img.Bounds.Dy (F64.fin k) = true
        then [(⟨name, img.Bounds.Dy, F64.fin k⟩ : Warning)] else []) := by
    split <;> simp
  have hB : F64.toInt (F64.ofInt ⌈(F64.fin k).toRat⌉) = ⌈(F64.fin k).toRat⌉ :=
    F64.toInt_ofInt _ hc
  have h0 : F64.toInt (F64.Max (F64.ofInt 0) (F64.ofInt 0)) = 0 := by
    rw [F64.Max_ofInt]; exact F64.toInt_ofInt _ ⟨by norm_num, by norm_num⟩
  unfold layoutStep
  simp only [h, F64.Ceil_fin, hw, hlog, hB]
  cases hl : st.sprites.getLast? with
  | none => simp only [h0, topPad]
  | some p =>
    obtain ⟨hp, hpe⟩ := hlast p hl
    have hT : F64.toInt (F64.Max (F64.ofInt ⌈(F64.fin k).toRat⌉) (F64.fromInt p.BottomPadding))
        = max ⌈(F64.fin k).toRat⌉ p.BottomPadding := by
      rw [hpe, F64.Max_ofInt]
      apply F64.toInt_ofInt
      unfold IsInt64 at *
      rcases le_total ⌈(F64.fin k).toRat⌉ p.BottomPadding with hle | hle
      · rw [max_eq_right hle]; exact hp
      · rw [max_eq_left hle]; exact hc
    simp only [hT, topPad]

theorem spread_nonneg (img : Image) : 0 ≤ spread img := by
  unfold spread
  split
  · omega
  · exact le_refl _

theorem spread_eq (img : Image) (isIt : Bool) (base : String) (f : F64)
    (h : IsMagnified img.Name = some (isIt, base, f)) :
    spread img
      = (img.Bounds.Dy.natAbs : Int) + 2 * ((F64.toInt (F64.Ceil f)).natAbs : Int) := by
  unfold spread
  rw [h]

/-- A bottom padding `int(math.Ceil(factor))` below `2^62` in magnitude is the
ceiling of a finite factor. -/
theorem toInt_Ceil_small (f : F64)
    (h : 2 * ((F64.toInt (F64.Ceil f)).natAbs : Int) < 2 ^ 63) :
    ∃ k, f = F64.fin k ∧ IsInt64 ⌈(F64.fin k).toRat⌉ ∧
      F64.toInt (F64.Ceil f) = ⌈(F64.fin k).toRat⌉ := by
  cases f with
  | inf b =>
    have e : F64.toInt (F64.Ceil (F64.inf b)) = -9223372036854775808 := rfl
    rw [e] at h
    omega
  | nan =>
    have e : F64.toInt (F64.Ceil F64.nan) = -9223372036854775808 := rfl
    rw [e] at h
    omega
  | fin k =>
    rw [F64.Ceil_fin] at h ⊢
    by_cases hc : IsInt64 ⌈(F64.fin k).toRat⌉
    · exact ⟨k, rfl, hc, F64.toInt_ofInt _ hc⟩
    · exfalso
      have e : F64.toInt (F64.ofInt ⌈(F64.fin k).toRat⌉) = -9223372036854775808 := by
        unfold F64.toInt F64.ofInt
        simp only [Int.mul_tdiv_cancel _ unit_ne_zero_int]
        rw [if_neg]
        intro hh
        exact hc ⟨by omega, by omega⟩
      rw [e] at h
      omega

theorem spread_fin (img : Image) (isIt : Bool) (base : String) (k : Int)
    (h : IsMagnified img.Name = some (isIt, base, F64.fin k))
    (hc : IsInt64 ⌈(F64.fin k).toRat⌉) :
    spread img = (img.Bounds.Dy.natAbs : Int) + 2 * ((⌈(F64.fin k).toRat⌉).natAbs : Int) := by
  rw [spread_eq img isIt base _ h, F64.Ceil_fin, F64.toInt_ofInt _ hc]

/-- An image whose spread is below `2^63` has a finite factor with a ceiling in the
range of `int`. -/
theorem factor_of_spread (img : Image) (t : Bool × String × F64)
    (h : IsMagnified img.Name = some t) (hs : spread img < 2 ^ 63) :
    ∃ isIt base k, IsMagnified img.Name = some (isIt, base, F64.fin k) ∧
      IsInt64 ⌈(F64.fin k).toRat⌉ := by
  obtain ⟨isIt, base, f⟩ := t
  rw [spread_eq img isIt base f h] at hs
  obtain ⟨k, rfl, hc, -⟩ := toInt_Ceil_small f (by omega)
  exact ⟨isIt, base, k, h, hc⟩

theorem extent_nonneg (images : List Image) : 0 ≤ extent images := by
  unfold extent
  apply List.sum_nonneg
  intro x hx
  obtain ⟨img, -, rfl⟩ := List.mem_map.mp hx
  exact spread_nonneg img

theorem extent_append (xs ys : List Image) : extent (xs ++ ys) = extent xs + extent ys := by
  unfold extent
  rw [List.map_append, List.sum_append]

theorem extent_singleton (img : Image) : extent [img] = spread img := by
  simp [extent]

theorem spread_le_extent (images : List Image) (img : Image) (h : img ∈ images) :
    spread img ≤ extent images := by
  unfold extent
  apply List.single_le_sum
  · intro x hx
    obtain ⟨i, -, rfl⟩ := List.mem_map.mp hx
    exact spread_nonneg i
  · exact List.mem_map.mpr ⟨img, h, rfl⟩

/-- The factors of an input whose extent is below `2^63 - 1` are finite with a
ceiling in the range of `int`. -/
theorem convertible_of_extent (images : List Image)
    (hnp : ∀ img ∈ images, ∃ t, IsMagnified img.Name = some t)
    (hfit : extent images < 2 ^ 63 - 1) : Convertible images := by
  intro img himg
  obtain ⟨t, ht⟩ := hnp img himg
  have h1 := spread_le_extent images img himg
  obtain ⟨isIt, base, k, hk, hc⟩ := factor_of_spread img t ht (by omega)
  exact ⟨isIt, base, F64.fin k, hk, trivial, hc⟩

theorem padInv_step (images : List Image) (st st1 : LayoutState) (img : Image)
    (hinv : PadInv images st) (hstep : layoutStep st img = some st1)
    (hconv : ∃ isIt base f, IsMagnified img.Name = some (isIt, base, f) ∧ f.IsFinite ∧
      IsInt64 ⌈f.toRat⌉) :
    PadInv (images ++ [img]) st1 := by
  obtain ⟨isIt, base, f, hk, hf, hc⟩ := hconv
  cases f with
  | inf b => exact hf.elim
  | nan => exact hf.elim
  | fin k =>
  rw [layoutStep_fin st img isIt base k hk hc hinv.last] at hstep
  injection hstep with hstep
  subst hstep
  have hlen := hinv.length_eq
  refine ⟨?_, ?_, ?_, ?_, ?_⟩
  · simp [hlen]
  · simp only [List.map_append, List.map_cons, List.map_nil]
    rw [foldr_max_snoc, hinv.width_eq]
  · simp only
    rw [List.zip_append hlen.symm, List.filterMap_append, ← hinv.log_eq]
    congr 1
    simp only [List.zip_cons_cons, List.zip_nil_right, List.filterMap_cons, warningFor]
    split <;> simp
  · intro i img' s himg hs
    simp only at hs
    rcases Nat.lt_or_ge i images.length with hi | hi
    · have hi' : i < st.sprites.length := hlen ▸ hi
      rw [List.getElem?_append_left hi] at himg
      rw [List.getElem?_append_left hi'] at hs
      have := hinv.pads i img' s himg hs
      simp only
      rw [List.take_append_of_le_length (hlen ▸ hi.le)]
      exact this
    · have hlt : i < (images ++ [img]).length :=
        (List.getElem?_eq_some_iff.mp himg).1
      simp only [List.length_append, List.length_singleton] at hlt
      have hi_eq : i = images.length := by omega
      subst hi_eq
      rw [List.getElem?_append_right (le_refl _)] at himg
      rw [← hlen, List.getElem?_append_right (le_refl _)] at hs
      simp only [Nat.sub_self, List.getElem?_cons_zero, Option.some.injEq] at himg hs
      subst himg hs
      have ht2 : ∀ x : Sprite, List.take images.length (st.sprites ++ [x]) = st.sprites := by
        intro x; rw [← hlen]; simp
      unfold PadsOf
      rw [ht2]
      exact ⟨⟨isIt, hk⟩, trivial, rfl, rfl⟩
  · intro p hp
    simp only [List.getLast?_append, List.getLast?_singleton, Option.or_some,
      Option.some.injEq] at hp
    subst hp
    refine ⟨hc, F64.fromInt_of_isFloat64 _ ?_⟩
    rw [← F64.Ceil_fin]
    exact F64.isFloat64_Ceil k (isFloat64_of_isMagnified _ _ _ _ hk)

theorem padInv_nil : PadInv [] ⟨0, 0, [], []⟩ :=
  ⟨rfl, rfl, rfl, fun i img s h => by simp at h, fun p h => by simp at h⟩

theorem layoutStep_isSome (st : LayoutState) (img : Image) (r : Bool × String × F64)
    (h : IsMagnified img.Name = some r) : ∃ st1, layoutStep st img = some st1 := by
  obtain ⟨isIt, name, f⟩ := r
  unfold layoutStep
  simp only [h]
  exact ⟨_, rfl⟩

/-- On names with finite factors whose ceiling is an `int` the loop ends, in a state
satisfying the invariant on paddings. -/
theorem layoutLoop_pads (images : List Image) (hconv : Convertible images) :
    ∃ st, layoutLoop images ⟨0, 0, [], []⟩ = some st ∧ PadInv images st := by
  induction images using List.reverseRecOn with
  | nil => exact ⟨_, rfl, padInv_nil⟩
  | append_singleton images img ih =>
    obtain ⟨st, hst, hinv⟩ := ih (fun x hx => hconv x (List.mem_append_left _ hx))
    have himg := hconv img (by simp)
    obtain ⟨isIt, base, f, hk, -, -⟩ := himg
    obtain ⟨st1, hstep⟩ := layoutStep_isSome st img _ hk
    refine ⟨st1, ?_, padInv_step images st st1 img hinv hstep (hconv img (by simp))⟩
    rw [layoutLoop_append, hst, Option.some_bind, layoutLoop_singleton, hstep]

theorem lastPad_snoc (sprites : List Sprite) (s : Sprite) :
    lastPad (sprites ++ [s]) = (s.BottomPadding.natAbs : Int) := by
  unfold lastPad
  simp

theorem topPad_bound (sprites : List Sprite) (f : F64) :
    ((topPad sprites.getLast? f).natAbs : Int)
      ≤ max ((⌈f.toRat⌉).natAbs : Int) (lastPad sprites) := by
  unfold topPad lastPad
  cases sprites.getLast? with
  | none => simp
  | some p =>
    simp only
    rcases le_total ⌈f.toRat⌉ p.BottomPadding with h | h
    · rw [max_eq_right h]; exact le_max_right _ _
    · rw [max_eq_left h]; exact le_max_left _ _

theorem notMultiple_fudge (h : Int) (f : F64) :
    (0 : Int) ≤ (if notMultiple h f then 1 else 0) ∧
      (if notMultiple h f then (1 : Int) else 0) ≤ 1 := by
  split <;> simp

theorem no_wrap (S T h c L E fu : Int) (hb : (S.natAbs : Int) + L ≤ E) (hL : 0 ≤ L)
    (hT : (T.natAbs : Int) ≤ max (c.natAbs : Int) L) (hfu : 0 ≤ fu ∧ fu ≤ 1)
    (hfit : E + ((h.natAbs : Int) + 2 * (c.natAbs : Int)) < 2 ^ 63 - 1) :
    IsInt64 (S + T) ∧ IsInt64 (S + T - fu) ∧ IsInt64 (S + T + h) ∧ IsInt64 (h + T) ∧
      IsInt64 (S + (h + T)) := by
  unfold IsInt64
  omega

theorem bound_step (S T h c L E : Int) (hb : (S.natAbs : Int) + L ≤ E) (hL : 0 ≤ L)
    (hT : (T.natAbs : Int) ≤ max (c.natAbs : Int) L) :
    ((S + (h + T)).natAbs : Int) + (c.natAbs : Int)
      ≤ E + ((h.natAbs : Int) + 2 * (c.natAbs : Int)) := by
  omega

theorem posInv_step (images : List Image) (st st1 : LayoutState) (img : Image)
    (hpad : PadInv images st) (hinv : PosInv images st)
    (hstep : layoutStep st img = some st1)
    (hnp : ∃ t, IsMagnified img.Name = some t)
    (hfit : extent (images ++ [img]) < 2 ^ 63 - 1) :
    PosInv (images ++ [img]) st1 := by
  obtain ⟨t, ht⟩ := hnp
  have hlen := hpad.length_eq
  have hE := extent_nonneg images
  rw [extent_append, extent_singleton] at hfit
  obtain ⟨isIt, base, k, hk, hc⟩ := factor_of_spread img t ht (by omega)
  have hsp := spread_fin img isIt base k hk hc
  rw [layoutStep_fin st img isIt base k hk hc hpad.last] at hstep
  injection hstep with hstep
  subst hstep
  have hb := hinv.bound
  have hlp : 0 ≤ lastPad st.sprites := by
    unfold lastPad; split <;> simp
  have hT := topPad_bound st.sprites (F64.fin k)
  have hfu := notMultiple_fudge img.Bounds.Dy (F64.fin k)
  generalize hTd : topPad st.sprites.getLast? (F64.fin k) = T at hT ⊢
  generalize hfd : (if notMultiple img.Bounds.Dy (F64.fin k) = true then (1 : Int) else 0) = fu
    at hfu ⊢
  obtain ⟨r1, r2, r3, r4, r5⟩ := no_wrap st.sheetHeight T img.Bounds.Dy
    ⌈(F64.fin k).toRat⌉ (lastPad st.sprites) (extent images) fu hb hlp hT hfu (hsp ▸ hfit)
  have w1 := wrap64_eq _ r1
  have w2 := wrap64_eq _ r2
  have w3 := wrap64_eq _ r3
  have w4 := wrap64_eq _ r4
  have w5 := wrap64_eq _ r5
  simp only [w1, w2, w3, w4, w5]
  refine ⟨?_, ?_, ?_⟩
  · simp only
    rw [paddedHeights_snoc _ _ _ _ hlen, hinv.height_eq]
  · intro i img' s himg hs
    simp only at hs
    rcases Nat.lt_or_ge i images.length with hi | hi
    · have hi' : i < st.sprites.length := hlen ▸ hi
      rw [List.getElem?_append_left hi] at himg
      rw [List.getElem?_append_left hi'] at hs
      have := hinv.rect i img' s himg hs
      simp only
      rw [List.take_append_of_le_length hi.le, List.take_append_of_le_length (hlen ▸ hi.le)]
      exact this
    · have hlt : i < (images ++ [img]).length :=
        (List.getElem?_eq_some_iff.mp himg).1
      simp only [List.length_append, List.length_singleton] at hlt
      have hi_eq : i = images.length := by omega
      subst hi_eq
      rw [List.getElem?_append_right (le_refl _)] at himg
      rw [← hlen, List.getElem?_append_right (le_refl _)] at hs
      simp only [Nat.sub_self, List.getElem?_cons_zero, Option.some.injEq] at himg hs
      subst himg hs
      have ht1 : (images ++ [img]).take images.length = images := by simp
      have ht2 : ∀ x : Sprite, List.take images.length (st.sprites ++ [x]) = st.sprites := by
        intro x; rw [← hlen]; simp
      simp only
      rw [ht1, ht2, ← hinv.height_eq, hfd]
  · show ((st.sheetHeight + (img.Bounds.Dy + T)).natAbs : Int) + lastPad (st.sprites ++ [_])
      ≤ extent (images ++ [img])
    rw [lastPad_snoc, extent_append, extent_singleton, hsp]
    exact bound_step _ _ _ _ _ _ hb hlp hT

theorem posInv_nil : PosInv [] ⟨0, 0, [], []⟩ :=
  ⟨rfl, fun i img s h => by simp at h, by simp [lastPad, extent]⟩

/-- On names that do not panic, with an extent below `2^63 - 1`, the loop ends, in a
state satisfying both invariants. -/
theorem layoutLoop_spec (images : List Image)
    (hnp : ∀ img ∈ images, ∃ t, IsMagnified img.Name = some t)
    (hfit : extent images < 2 ^ 63 - 1) :
    ∃ st, layoutLoop images ⟨0, 0, [], []⟩ = some st ∧ PadInv images st ∧ PosInv images st := by
  induction images using List.reverseRecOn with
  | nil => exact ⟨_, rfl, padInv_nil, posInv_nil⟩
  | append_singleton images img ih =>
    have hconv := convertible_of_extent _ hnp hfit
    have hfit' : extent images < 2 ^ 63 - 1 := by
      rw [extent_append] at hfit
      have := extent_nonneg [img]
      omega
    obtain ⟨st, hst, hpad, hpos⟩ := ih (fun x hx => hnp x (List.mem_append_left _ hx)) hfit'
    obtain ⟨t, hk⟩ := hnp img (by simp)
    obtain ⟨st1, hstep⟩ := layoutStep_isSome st img _ hk
    refine ⟨st1, ?_, padInv_step images st st1 img hpad hstep (hconv img (by simp)),
      posInv_step images st st1 img hpad hpos hstep ⟨t, hk⟩ hfit⟩
    rw [layoutLoop_append, hst, Option.some_bind, layoutLoop_singleton, hstep]

/-- The loop ends only on names on which `IsMagnified` does not panic. -/
theorem layoutLoop_names (images : List Image) (st st1 : LayoutState)
    (h : layoutLoop images st = some st1) :
    ∀ img ∈ images, ∃ t, IsMagnified img.Name = some t := by
  induction images generalizing st with
  | nil => intro x hx; simp at hx
  | cons img rest ih =>
    simp only [layoutLoop] at h
    cases hs : layoutStep st img with
    | none => simp [hs] at h
    | some st2 =>
      rw [hs] at h
      intro x hx
      rcases List.mem_cons.mp hx with rfl | hx
      · cases hm : IsMagnified x.Name with
        | none => simp [layoutStep, hm] at hs
        | some t => exact ⟨t, rfl⟩
      · exact ih st2 h x hx

/-- A result of `GenerateSpriteSheet` comes from a final state of the loop. -/
theorem generateSpriteSheet_eq (images : List Image) (r : SheetResult)
    (hr : GenerateSpriteSheet images = some r) :
    ∃ st, layoutLoop images ⟨0, 0, [], []⟩ = some st ∧
      r = ⟨Rect 0 0 st.sheetWidth st.sheetHeight, st.sprites, st.log⟩ := by
  unfold GenerateSpriteSheet at hr
  cases hl : layoutLoop images ⟨0, 0, [], []⟩ with
  | none => rw [hl] at hr; exact absurd hr (by simp)
  | some st =>
    rw [hl] at hr
    injection hr with hr
    exact ⟨st, rfl, hr.symm⟩

/-- The result of `GenerateSpriteSheet` on names with finite factors whose ceiling
is an `int` comes from a final state satisfying the invariant on paddings. -/
theorem generateSpriteSheet_pads (images : List Image) (r : SheetResult)
    (hr : GenerateSpriteSheet images = some r) (hconv : Convertible images) :
    ∃ st, PadInv images st ∧
      r = ⟨Rect 0 0 st.sheetWidth st.sheetHeight, st.sprites, st.log⟩ := by
  obtain ⟨st, hst, hinv⟩ := layoutLoop_pads images hconv
  obtain ⟨st', hst', e⟩ := generateSpriteSheet_eq images r hr
  rw [hst] at hst'
  injection hst' with hst'
  subst hst'
  exact ⟨st, hinv, e⟩

/-- The result of `GenerateSpriteSheet` on an input with an extent below `2^63 - 1`
comes from a final state satisfying both invariants. -/
theorem generateSpriteSheet_spec (images : List Image) (r : SheetResult)
    (hr : GenerateSpriteSheet images = some r) (hfit : extent images < 2 ^ 63 - 1) :
    ∃ st, PadInv images st ∧ PosInv images st ∧
      r = ⟨Rect 0 0 st.sheetWidth st.sheetHeight, st.sprites, st.log⟩ := by
  obtain ⟨st', hst', e⟩ := generateSpriteSheet_eq images r hr
  obtain ⟨st, hst, hpad, hpos⟩ :=
    layoutLoop_spec images (layoutLoop_names images _ st' hst') hfit
  rw [hst] at hst'
  injection hst' with hst'
  subst hst'
  exact ⟨st, hpad, hpos, e⟩

/-- On names that do not panic, with an extent below `2^63 - 1`, the model of
`GenerateSpriteSheet` has a result. -/
theorem generateSpriteSheet_isSome (images : List Image)
    (hnp : ∀ img ∈ images, ∃ t, IsMagnified img.Name = some t)
    (hfit : extent images < 2 ^ 63 - 1) : ∃ r, GenerateSpriteSheet images = some r := by
  obtain ⟨st, hst, -, -⟩ := layoutLoop_spec images hnp hfit
  refine ⟨⟨Rect 0 0 st.sheetWidth st.sheetHeight, st.sprites, st.log⟩, ?_⟩
  simp [GenerateSpriteSheet, hst]

/-- Up to `2^53` the test of the loop succeeds exactly when the height is not an
exact multiple of the factor. -/
theorem notMultiple_iff (h k : Int) (hh : |h| ≤ 2 ^ 53) :
    notMultiple h (F64.fin k) = true ↔ ¬ F64.IsMultipleOf h (F64.fin k) := by
  unfold notMultiple
  rw [F64.fromInt_small h hh]
  exact F64.neZero_Mod_ofInt_fin h k

/-- On factor 1.0 the test of the loop fails for every height. -/
theorem notMultiple_one (h : Int) (hh : IsInt64 h) : notMultiple h (F64.ofInt 1) = false := by
  obtain ⟨z, hz⟩ := F64.fromInt_integer h (by unfold IsInt64 at hh; omega)
  unfold notMultiple
  rw [hz]
  exact F64.Mod_ofInt_one z

theorem foldr_max_lt (l : List Int) (b : Int) (hb : 0 < b) (h : ∀ x ∈ l, x < b) :
    l.foldr max 0 < b := by
  induction l with
  | nil => simpa using hb
  | cons a l ih =>
    simp only [List.foldr_cons]
    exact max_lt (h a (by simp)) (ih (fun x hx => h x (List.mem_cons_of_mem _ hx)))

theorem sheetWidth_lt (images : List Image) :
    (images.map fun img => img.Bounds.Dx).foldr max 0 < 2 ^ 63 := by
  apply foldr_max_lt _ _ (by norm_num)
  intro x hx
  obtain ⟨img, -, rfl⟩ := List.mem_map.mp hx
  exact (wrap64_isInt64 _).2

theorem lastPad_nonneg (sprites : List Sprite) : 0 ≤ lastPad sprites := by
  unfold lastPad; split <;> simp

/-- The bounds of the sheet made from a final state of the loop. -/
theorem sheet_dims (images : List Image) (st : LayoutState) (hpad : PadInv images st)
    (hpos : PosInv images st) (hfit : extent images < 2 ^ 63 - 1) :
    (Rect 0 0 st.sheetWidth st.sheetHeight).Dx = st.sheetWidth ∧
    (Rect 0 0 st.sheetWidth st.sheetHeight).Dy = |st.sheetHeight| := by
  have hw : 0 ≤ st.sheetWidth := by rw [hpad.width_eq]; exact foldr_max_nonneg _
  have hw2 : st.sheetWidth < 2 ^ 63 := by rw [hpad.width_eq]; exact sheetWidth_lt _
  have hb := hpos.bound
  have hl := lastPad_nonneg st.sprites
  have hh : |st.sheetHeight| < 2 ^ 63 := by
    rw [← Int.natCast_natAbs]; omega
  exact Rect_zero_zero _ _ hw hw2 hh

theorem Dy_isInt64 (img : Image) : IsInt64 img.Bounds.Dy := wrap64_isInt64 _

theorem Dx_isInt64 (img : Image) : IsInt64 img.Bounds.Dx := wrap64_isInt64 _

/-- The extent of images of non-negative height with factor 1.0. -/
theorem extent_unmagnified (images : List Image)
    (hone : ∀ img ∈ images, ∃ isIt base,
      IsMagnified img.Name = some (isIt, base, F64.ofInt 1))
    (hwf : ∀ img ∈ images, 0 ≤ img.Bounds.Dy) :
    extent images = sumHeights images + 2 * images.length := by
  induction images with
  | nil => simp [extent, sumHeights]
  | cons img rest ih =>
    have h1 := ih (fun x hx => hone x (List.mem_cons_of_mem _ hx))
      (fun x hx => hwf x (List.mem_cons_of_mem _ hx))
    obtain ⟨isIt, base, hk⟩ := hone img (by simp)
    have h3 : ⌈(F64.fin ((1 : Int) * unit)).toRat⌉ = 1 := ceil_toRat_ofInt 1
    have h2 := spread_fin img isIt base _ hk (by rw [h3]; unfold IsInt64; norm_num)
    rw [h3] at h2
    have h4 := hwf img (by simp)
    have e1 : extent (img :: rest) = spread img + extent rest := by simp [extent]
    have e2 : sumHeights (img :: rest) = img.Bounds.Dy + sumHeights rest := by
      simp [sumHeights]
    rw [e1, e2, h1, h2]
    simp only [List.length_cons, Nat.cast_add, Nat.cast_one]
    omega

/-- Only the height is tested against the factor, not the width: an image 7 wide and
10 high named for factor 2 gets no fudge and no warning. -/
theorem width_not_tested :
    (GenerateSpriteSheet oddWidth).map
      (fun r => (r.sprites.map (fun s => (s.Rectangle.Min.Y, s.Rectangle.Max.Y)), r.log))
      = some ([(0, 10)], []) ∧
    ¬ F64.IsMultipleOf 7 (F64.ofInt 2) := by
  decide

/-! ## The claims -/

/-- C1, counterexample: three unmagnified images of heights 10, 20 and 30 get
bottom padding 1, top paddings 0, 1, 1, the Y-ranges [0,10), [11,31), [32,62) and a
sheet of height 62, not padding 0, [0,10), [10,30), [30,60) and height 60.  And for
four unmagnified images of height `2^62` the sums wrap around: the second sprite
spans the rows `-2^63 + 1` to `2^62 + 1` and the sheet is 3 high. -/
theorem unmagnified_padding_counterexample :
    (∀ img ∈ threePlain, IsMagnified img.Name = some (false, img.Name, F64.ofInt 1)) ∧
    (GenerateSpriteSheet threePlain).map
      (fun r => (r.sprites.map
        (fun s => (s.TopPadding, s.BottomPadding, s.Rectangle.Min.Y, s.Rectangle.Max.Y)),
        r.sheet.Dy))
      = some ([(0, 1, 0, 10), (1, 1, 11, 31), (1, 1, 32, 62)], 62) ∧
    (∀ img ∈ fourHuge, IsMagnified img.Name = some (false, img.Name, F64.ofInt 1)
      ∧ img.Bounds.Dy = 4611686018427387904) ∧
    (GenerateSpriteSheet fourHuge).map
      (fun r => (r.sprites.map
        (fun s => (s.TopPadding, s.BottomPadding, s.Rectangle.Min.Y, s.Rectangle.Max.Y)),
        r.sheet.Dy))
      = some ([(0, 1, 0, 4611686018427387904),
          (1, 1, -9223372036854775807, 4611686018427387905),
          (1, 1, -9223372036854775806, -4611686018427387902),
          (1, 1, -4611686018427387901, 3)], 3) :=
  ⟨by decide, by decide, by decide, by decide⟩

/-- C1 (amended): when every name has factor 1.0, every image a non-negative
height, and the sum of the heights plus twice the number of images stays below
`2^63 - 1` (so that no sum leaves the range of `int`), every sprite has bottom
padding 1, the first sprite has top padding 0 and every later one top padding 1,
sprite `i` occupies the rows from `(sum of the earlier heights) + i` for its own
height, and the sheet of a non-empty input is as high as the sum of the heights plus
one row between consecutive sprites. -/
theorem unmagnified_layout (images : List Image)
    (hone : ∀ img ∈ images, ∃ isIt base,
      IsMagnified img.Name = some (isIt, base, F64.ofInt 1))
    (hwf : ∀ img ∈ images, 0 ≤ img.Bounds.Dy)
    (hfit : sumHeights images + 2 * images.length < 2 ^ 63 - 1) :
    ∃ r, GenerateSpriteSheet images = some r ∧
      r.sprites.length = images.length ∧
      (∀ (i : Nat) (img : Image) (s : Sprite), images[i]? = some img →
        r.sprites[i]? = some s →
        s.BottomPadding = 1 ∧
        s.TopPadding = (if i = 0 then 0 else 1) ∧
        s.Rectangle.Min.Y = sumHeights (images.take i) + i ∧
        s.Rectangle.Max.Y = sumHeights (images.take i) + i + img.Bounds.Dy) ∧
      (images ≠ [] → r.sheet.Dy = sumHeights images + images.length - 1) := by
  have hnp : ∀ img ∈ images, ∃ t, IsMagnified img.Name = some t := by
    intro img himg
    obtain ⟨isIt, base, hf⟩ := hone img himg
    exact ⟨_, hf⟩
  have hext : extent images < 2 ^ 63 - 1 := by
    rw [extent_unmagnified images hone hwf]; exact hfit
  obtain ⟨r, hr⟩ := generateSpriteSheet_isSome images hnp hext
  obtain ⟨st, hinv, hpos, rfl⟩ := generateSpriteSheet_spec images r hr hext
  have hlen := hinv.length_eq
  -- every sprite has factor 1.0
  have hfac : ∀ (i : Nat) (img : Image) (s : Sprite), images[i]? = some img →
      st.sprites[i]? = some s → s.MagFactor = F64.ofInt 1 := by
    intro i img s hi hs
    obtain ⟨⟨isIt, hn⟩, -⟩ := hinv.pads i img s hi hs
    obtain ⟨isIt', base, hf⟩ := hone img (List.getElem?_mem hi)
    rw [hf] at hn; injection hn with hn; injection hn with _ hn; injection hn with _ hn
    exact hn.symm
  have hbot : ∀ (i : Nat) (img : Image) (s : Sprite), images[i]? = some img →
      st.sprites[i]? = some s → s.BottomPadding = 1 := by
    intro i img s hi hs
    obtain ⟨-, -, hb, -⟩ := hinv.pads i img s hi hs
    rw [hb, hfac i img s hi hs, ceil_toRat_ofInt]
  have htop : ∀ (i : Nat) (img : Image) (s : Sprite), images[i]? = some img →
      st.sprites[i]? = some s → s.TopPadding = (if i = 0 then 0 else 1) := by
    intro i img s hi hs
    obtain ⟨-, -, -, ht⟩ := hinv.pads i img s hi hs
    rw [hfac i img s hi hs] at ht
    cases i with
    | zero => simpa [topPad] using ht
    | succ j =>
      have hj : j < st.sprites.length := by
        have := (List.getElem?_eq_some_iff.mp hs).1; omega
      have hsj : st.sprites[j]? = some st.sprites[j] := List.getElem?_eq_getElem hj
      have hij : images[j]? = some images[j] := List.getElem?_eq_getElem (hlen ▸ hj)
      rw [getLast?_take_succ _ j _ hsj] at ht
      rw [ht]
      simp [topPad, ceil_toRat_ofInt, hbot j _ _ hij hsj]
  -- closed form of the offsets
  have hoff : ∀ i : Nat, i ≤ images.length →
      paddedHeights (images.take i) (st.sprites.take i)
        = sumHeights (images.take i) + (if i = 0 then 0 else (i : Int) - 1) := by
    intro i
    induction i with
    | zero => intro _; simp [paddedHeights, sumHeights]
    | succ j ih =>
      intro hj
      have hj1 : j < images.length := by omega
      have hij : images[j]? = some images[j] := List.getElem?_eq_getElem hj1
      have hsj : st.sprites[j]? = some st.sprites[j] :=
        List.getElem?_eq_getElem (hlen.symm ▸ hj1)
      rw [paddedHeights_take_succ _ _ j _ _ hij hsj, sumHeights_take_succ _ j _ hij,
        ih (by omega), htop j _ _ hij hsj]
      by_cases h0 : j = 0
      · subst h0; simp
      · simp [h0]; ring
  refine ⟨_, hr, hlen, ?_, ?_⟩
  · intro i img s hi hs
    have hs' : st.sprites[i]? = some s := hs
    have hilt := (List.getElem?_eq_some_iff.mp hi).1
    have hrect := hpos.rect i img s hi hs'
    have hh := hwf img (List.getElem?_mem hi)
    have hm : notMultiple img.Bounds.Dy s.MagFactor = false := by
      rw [hfac i img s hi hs']; exact notMultiple_one _ (Dy_isInt64 img)
    rw [hm, hoff i hilt.le, htop i img s hi hs'] at hrect
    simp only [Bool.false_eq_true, if_false, sub_zero] at hrect
    refine ⟨hbot i img s hi hs', htop i img s hi hs', ?_, ?_⟩
    · rw [hrect, (Rect_Y _ _ _ _ (by omega)).1]
      by_cases h0 : i = 0
      · subst h0; simp
      · simp only [h0, if_false]; omega
    · rw [hrect, (Rect_Y _ _ _ _ (by omega)).2]
      by_cases h0 : i = 0
      · subst h0; simp
      · simp only [h0, if_false]; omega
  · intro hne
    have hpos' : 0 < images.length := List.length_pos.mpr hne
    have hall := hoff images.length (le_refl _)
    rw [List.take_length, ← hlen, List.take_length, hlen] at hall
    have hsum : 0 ≤ sumHeights images := by
      unfold sumHeights
      apply List.sum_nonneg
      intro x hx
      obtain ⟨img, himg, rfl⟩ := List.mem_map.mp hx
      exact hwf img himg
    have hS : st.sheetHeight = sumHeights images + images.length - 1 := by
      rw [hpos.height_eq, hall]
      have : images.length ≠ 0 := by omega
      simp [this]; ring
    show (Rect 0 0 st.sheetWidth st.sheetHeight).Dy = _
    rw [(sheet_dims images st hinv hpos hext).2, hS, abs_of_nonneg (by omega)]

/-- C1, witness of the amended statement at three unmagnified images of heights 10,
20 and 30. -/
theorem unmagnified_layout_witness :
    (∀ img ∈ threePlain, ∃ isIt base,
      IsMagnified img.Name = some (isIt, base, F64.ofInt 1)) ∧
    (∀ img ∈ threePlain, 0 ≤ img.Bounds.Dy) ∧
    sumHeights threePlain + 2 * threePlain.length < 2 ^ 63 - 1 ∧
    ∃ r, GenerateSpriteSheet threePlain = some r ∧
      r.sprites.length = threePlain.length ∧
      (∀ (i : Nat) (img : Image) (s : Sprite), threePlain[i]? = some img →
        r.sprites[i]? = some s →
        s.BottomPadding = 1 ∧
        s.TopPadding = (if i = 0 then 0 else 1) ∧
        s.Rectangle.Min.Y = sumHeights (threePlain.take i) + i ∧
        s.Rectangle.Max.Y = sumHeights (threePlain.take i) + i + img.Bounds.Dy) ∧
      (threePlain ≠ [] → r.sheet.Dy = sumHeights threePlain + threePlain.length - 1) :=
  have h1 : ∀ img ∈ threePlain, ∃ isIt base,
      IsMagnified img.Name = some (isIt, base, F64.ofInt 1) := fun img h =>
    ⟨false, img.Name, (by decide : ∀ img ∈ threePlain,
      IsMagnified img.Name = some (false, img.Name, F64.ofInt 1)) img h⟩
  have h2 : ∀ img ∈ threePlain, 0 ≤ img.Bounds.Dy := by decide
  have h3 : sumHeights threePlain + 2 * threePlain.length < 2 ^ 63 - 1 := by decide
  ⟨h1, h2, h3, unmagnified_layout threePlain h1 h2 h3⟩

/-- C2, counterexample: for two images of height 1 named `a@-5x` and `b@-5x` the sum
of image heights and applied top paddings is -3 while the sheet is 3 high; and for
an image of height 1000 followed by images of heights 100 and 1 with the factor
`2^63 - 1024` the sum is `2^64 - 947`, which is not an `int`, while the sheet is 947
high. -/
theorem sheet_height_counterexample :
    (GenerateSpriteSheet negativeFactors).map
      (fun r => (r.sprites.map (fun s => (s.MagFactor, s.TopPadding)),
        paddedHeights negativeFactors r.sprites, r.sheet, r.sheet.Dy))
      = some ([(F64.ofInt (-5), 0), (F64.ofInt (-5), -5)], -3, ⟨⟨0, -3⟩, ⟨1, 0⟩⟩, 3) ∧
    (GenerateSpriteSheet overflowing).map
      (fun r => (r.sprites.map (fun s => (s.MagFactor, s.TopPadding)),
        overflowing.map (fun img => img.Bounds.Dy),
        paddedHeights overflowing r.sprites, r.sheet, r.sheet.Dy))
      = some ([(F64.ofInt 1, 0), (F64.ofInt 9223372036854774784, 9223372036854774784),
          (F64.ofInt 9223372036854774784, 9223372036854774784)], [1000, 100, 1],
          18446744073709550669, ⟨⟨0, -947⟩, ⟨1, 0⟩⟩, 947) := by
  decide

/-- C2 (amended): when the sum over the images of `|height| + 2 * |int(ceil(factor))|`
is below `2^63 - 1`, so that no sum leaves the range of `int` (which requires every
factor to be finite with a ceiling in that range), the sheet that
`GenerateSpriteSheet` returns is as wide as the widest image (0 when there is none or
all widths are negative) and as high as the absolute value of the sum over the
sprites of image height plus applied top padding; that is the sum itself whenever it
is not negative, as it is when all heights are non-negative and all factors are
above -1.  The empty input gives a 0x0 sheet and no sprites; a single image a sheet
as high as the absolute value of its height. -/
theorem sheet_size (images : List Image) (r : SheetResult)
    (hr : GenerateSpriteSheet images = some r) (hfit : extent images < 2 ^ 63 - 1) :
    r.sprites.length = images.length ∧
    r.sheet.Dx = (images.map fun img => img.Bounds.Dx).foldr max 0 ∧
    (∀ img ∈ images, img.Bounds.Dx ≤ r.sheet.Dx) ∧
    (r.sheet.Dx = 0 ∨ ∃ img ∈ images, img.Bounds.Dx = r.sheet.Dx) ∧
    r.sheet.Dy = |paddedHeights images r.sprites| ∧
    (0 ≤ paddedHeights images r.sprites → r.sheet.Dy = paddedHeights images r.sprites) ∧
    ((∀ img ∈ images, 0 ≤ img.Bounds.Dy) → (∀ s ∈ r.sprites, -1 < s.MagFactor.toRat) →
      r.sheet.Dy = paddedHeights images r.sprites) ∧
    (∀ img : Image, images = [img] → r.sheet.Dy = |img.Bounds.Dy|) ∧
    GenerateSpriteSheet [] = some ⟨⟨⟨0, 0⟩, ⟨0, 0⟩⟩, [], []⟩ := by
  obtain ⟨st, hinv, hpos, rfl⟩ := generateSpriteSheet_spec images r hr hfit
  have hlen := hinv.length_eq
  obtain ⟨hdx, hdy⟩ := sheet_dims images st hinv hpos hfit
  have hspec := foldr_max_spec (images.map fun img => img.Bounds.Dx)
  refine ⟨hlen, ?_, ?_, ?_, ?_, ?_, ?_, ?_, by decide⟩
  · show (Rect 0 0 st.sheetWidth st.sheetHeight).Dx = _
    rw [hdx, hinv.width_eq]
  · intro img himg
    show img.Bounds.Dx ≤ (Rect 0 0 st.sheetWidth st.sheetHeight).Dx
    rw [hdx, hinv.width_eq]
    exact hspec.1 _ (List.mem_map.mpr ⟨img, himg, rfl⟩)
  · show (Rect 0 0 st.sheetWidth st.sheetHeight).Dx = 0
      ∨ ∃ img ∈ images, img.Bounds.Dx = (Rect 0 0 st.sheetWidth st.sheetHeight).Dx
    rw [hdx, hinv.width_eq]
    rcases hspec.2 with h0 | h0
    · exact Or.inl h0
    · obtain ⟨img, himg, e⟩ := List.mem_map.mp h0
      exact Or.inr ⟨img, himg, e⟩
  · show (Rect 0 0 st.sheetWidth st.sheetHeight).Dy = |paddedHeights images st.sprites|
    rw [hdy, hpos.height_eq]
  · intro h
    show (Rect 0 0 st.sheetWidth st.sheetHeight).Dy = paddedHeights images st.sprites
    rw [hdy, hpos.height_eq, abs_of_nonneg h]
  · intro hh hf
    show (Rect 0 0 st.sheetWidth st.sheetHeight).Dy = paddedHeights images st.sprites
    rw [hdy, hpos.height_eq, abs_of_nonneg]
    have hpre : ∀ i : Nat, i ≤ images.length →
        0 ≤ paddedHeights (images.take i) (st.sprites.take i) := by
      intro i
      induction i with
      | zero => intro _; simp [paddedHeights]
      | succ j ih =>
        intro hj
        have hj1 : j < images.length := by omega
        have hij : images[j]? = some images[j] := List.getElem?_eq_getElem hj1
        have hsj : st.sprites[j]? = some st.sprites[j] :=
          List.getElem?_eq_getElem (hlen.symm ▸ hj1)
        rw [paddedHeights_take_succ _ _ j _ _ hij hsj]
        have h1 := hh _ (List.getElem?_mem hij)
        have h2 : (0 : Int) ≤ ⌈(st.sprites[j]).MagFactor.toRat⌉ := by
          have := hf _ (List.getElem?_mem hsj)
          have h3 : (-1 : Int) < ⌈(st.sprites[j]).MagFactor.toRat⌉ :=
            Int.lt_ceil.mpr (by exact_mod_cast this)
          omega
        obtain ⟨-, -, -, ht⟩ := hinv.pads j _ _ hij hsj
        have h4 : 0 ≤ (st.sprites[j]).TopPadding := by
          rw [ht]
          unfold topPad
          split
          · exact le_refl _
          · exact le_max_of_le_left h2
        have := ih (by omega)
        omega
    have := hpre images.length (le_refl _)
    rwa [List.take_length, ← hlen, List.take_length] at this
  · intro img he
    subst he
    show (Rect 0 0 st.sheetWidth st.sheetHeight).Dy = _
    rw [hdy, hpos.height_eq]
    obtain ⟨s, hs⟩ : ∃ s, st.sprites = [s] := List.length_eq_one.mp hlen
    obtain ⟨-, -, -, ht⟩ := hinv.pads 0 img s (by simp) (by simp [hs])
    simp [topPad] at ht
    simp [hs, paddedHeights, ht]

/-- C2, witness of the amended statement at three images of widths 5, 7 and 3. -/
theorem sheet_size_witness :
    GenerateSpriteSheet threePlain = some threePlainResult ∧
    extent threePlain < 2 ^ 63 - 1 ∧
    (threePlainResult.sheet.Dx, threePlainResult.sheet.Dy) = (7, 62) ∧
    (threePlainResult.sprites.length = threePlain.length ∧
    threePlainResult.sheet.Dx = (threePlain.map fun img => img.Bounds.Dx).foldr max 0 ∧
    (∀ img ∈ threePlain, img.Bounds.Dx ≤ threePlainResult.sheet.Dx) ∧
    (threePlainResult.sheet.Dx = 0
      ∨ ∃ img ∈ threePlain, img.Bounds.Dx = threePlainResult.sheet.Dx) ∧
    threePlainResult.sheet.Dy = |paddedHeights threePlain threePlainResult.sprites| ∧
    (0 ≤ paddedHeights threePlain threePlainResult.sprites →
      threePlainResult.sheet.Dy = paddedHeights threePlain threePlainResult.sprites) ∧
    ((∀ img ∈ threePlain, 0 ≤ img.Bounds.Dy) →
      (∀ s ∈ threePlainResult.sprites, -1 < s.MagFactor.toRat) →
      threePlainResult.sheet.Dy = paddedHeights threePlain threePlainResult.sprites) ∧
    (∀ img : Image, threePlain = [img] → threePlainResult.sheet.Dy = |img.Bounds.Dy|) ∧
    GenerateSpriteSheet [] = some ⟨⟨⟨0, 0⟩, ⟨0, 0⟩⟩, [], []⟩) :=
  have h0 : GenerateSpriteSheet threePlain = some threePlainResult := by decide
  have h2 : extent threePlain < 2 ^ 63 - 1 := by decide
  ⟨h0, h2, by decide, sheet_size threePlain threePlainResult h0 h2⟩

/-- C3, counterexample: an image of height 1000 followed by images of heights 100
and 1 whose names carry the factor `2^63 - 1024`, all 1 wide and of factor above 0.
The sum `1000 + (2^63 - 1024) + 100` wraps around, `image.Rect` swaps the two edges,
and the second sprite starts at row `-2^63 + 76`, far above the end, row 1000, of the
first; the third starts at row -949, above the end of the second.  And after an
image of height 10, an image whose name carries the factor `+Inf` gets the top padding
`int(+Inf)` and starts at row `-2^63 + 9`, above the end, row 10, of the first. -/
theorem stacking_counterexample :
    overflowing.map (fun img => (img.Bounds.Dx, img.Bounds.Dy))
      = [(1, 1000), (1, 100), (1, 1)] ∧
    (GenerateSpriteSheet overflowing).map
      (fun r => r.sprites.map
        (fun s => (s.Name, s.MagFactor, s.Rectangle.Min.Y, s.Rectangle.Max.Y)))
      = some [("a", F64.ofInt 1, 0, 1000),
          ("b", F64.ofInt 9223372036854774784, -9223372036854775732, 9223372036854775783),
          ("c", F64.ofInt 9223372036854774784, -949, -947)] ∧
    (0 < (F64.ofInt 1).toRat ∧ 0 < (F64.ofInt 9223372036854774784).toRat) ∧
    ¬ ((1000 : Int) ≤ -9223372036854775732) ∧
    infiniteFactors.map (fun img => (img.Bounds.Dx, img.Bounds.Dy))
      = [(1, 10), (1, 10), (1, 10)] ∧
    (GenerateSpriteSheet infiniteFactors).map
      (fun r => (r.sheet.Dy, r.sprites.map
        (fun s => (s.Name, s.MagFactor, s.Rectangle.Min.Y, s.Rectangle.Max.Y))))
      = some (30, [("a", F64.ofInt 1, 0, 10),
          ("b", F64.inf false, -9223372036854775799, -9223372036854775788),
          ("c", F64.inf false, 19, 30)]) ∧
    ¬ ((10 : Int) ≤ -9223372036854775799) :=
  ⟨by decide, by decide,
    ⟨by rw [F64.toRat_ofInt]; norm_num, by rw [F64.toRat_ofInt]; norm_num⟩, by decide,
    by decide, by decide, by decide⟩

/-- C3 (amended): for images of non-negative height whose names all parse to a finite
factor above 0, with the sum over the images of `height + 2 * int(ceil(factor))` below
`2^63 - 1` so that no sum leaves the range of `int`, the sprites that
`GenerateSpriteSheet` returns are in input order (sprite `i` is the one made from
image `i`), each spans at least the rows of its image, and they are stacked top to
bottom: the bottom edge of each sprite is not below the top edge of the next one,
fudge included. -/
theorem stacked_without_overlap (images : List Image) (r : SheetResult)
    (hr : GenerateSpriteSheet images = some r)
    (hpos : ∀ img ∈ images, ∃ isIt base f,
      IsMagnified img.Name = some (isIt, base, f) ∧ f.IsFinite ∧ 0 < f.toRat)
    (hwf : ∀ img ∈ images, 0 ≤ img.Bounds.Dy)
    (hfit : extent images < 2 ^ 63 - 1) :
    r.sprites.length = images.length ∧
    (∀ (i : Nat) (img : Image) (s : Sprite), images[i]? = some img →
      r.sprites[i]? = some s →
      (∃ isIt, IsMagnified img.Name = some (isIt, s.Name, s.MagFactor)) ∧
      s.Rectangle.Min.Y + img.Bounds.Dy ≤ s.Rectangle.Max.Y) ∧
    (∀ (i : Nat) (s t : Sprite), r.sprites[i]? = some s → r.sprites[i + 1]? = some t →
      s.Rectangle.Max.Y ≤ t.Rectangle.Min.Y) := by
  obtain ⟨st, hinv, hps, rfl⟩ := generateSpriteSheet_spec images r hr hfit
  refine ⟨hinv.length_eq, ?_, ?_⟩
  · intro i img s hi hs
    have hrs := hps.rect i img s hi hs
    have h0 := hwf img (List.getElem?_mem hi)
    have hfudge := notMultiple_fudge img.Bounds.Dy s.MagFactor
    refine ⟨(hinv.pads i img s hi hs).1, ?_⟩
    rw [hrs, (Rect_Y _ _ _ _ (by omega)).2, (Rect_Y _ _ _ _ (by omega)).1]
    omega
  intro i s t hs ht
  have hs' : st.sprites[i]? = some s := hs
  have ht' : st.sprites[i + 1]? = some t := ht
  have hlt : i + 1 < images.length := by
    rw [← hinv.length_eq]; exact (List.getElem?_eq_some_iff.mp ht').1
  have hi1 : images[i + 1]? = some images[i + 1] := List.getElem?_eq_getElem hlt
  have hi0 : images[i]? = some images[i] := List.getElem?_eq_getElem (by omega)
  have hrs := hps.rect i images[i] s hi0 hs'
  have hrt := hps.rect (i + 1) images[i + 1] t hi1 ht'
  obtain ⟨⟨isIt, hnt⟩, -, -, htt⟩ := hinv.pads (i + 1) images[i + 1] t hi1 ht'
  obtain ⟨isIt', base, f, hf, -, hfpos⟩ := hpos images[i + 1] (List.getElem?_mem hi1)
  have hfe : f = t.MagFactor := by
    rw [hf] at hnt; injection hnt with hnt; injection hnt with _ hnt; injection hnt
  rw [hfe] at hfpos
  have hceil : 1 ≤ ⌈t.MagFactor.toRat⌉ := Int.one_le_ceil_iff.mpr hfpos
  rw [getLast?_take_succ _ i s hs'] at htt
  have htop : 1 ≤ t.TopPadding := by
    rw [htt]; exact le_max_of_le_left hceil
  have h0 := hwf images[i] (List.getElem?_mem hi0)
  have h1 := hwf images[i + 1] (List.getElem?_mem hi1)
  rw [paddedHeights_take_succ images st.sprites i images[i] s hi0 hs'] at hrt
  have hfudge := notMultiple_fudge images[i + 1].Bounds.Dy t.MagFactor
  have hfudge' := notMultiple_fudge images[i].Bounds.Dy s.MagFactor
  rw [hrs, hrt]
  rw [(Rect_Y _ _ _ _ (by omega)).2, (Rect_Y _ _ _ _ (by omega)).1]
  omega

/-- C3, witness at images of factors 2, 1 and 3. -/
theorem stacked_without_overlap_witness :
    GenerateSpriteSheet mixedFactors = some mixedResult ∧
    (∀ img ∈ mixedFactors, ∃ isIt base f,
      IsMagnified img.Name = some (isIt, base, f) ∧ f.IsFinite ∧ 0 < f.toRat) ∧
    (∀ img ∈ mixedFactors, 0 ≤ img.Bounds.Dy) ∧
    extent mixedFactors < 2 ^ 63 - 1 ∧
    (mixedResult.sprites.length = mixedFactors.length ∧
    (∀ (i : Nat) (img : Image) (s : Sprite), mixedFactors[i]? = some img →
      mixedResult.sprites[i]? = some s →
      (∃ isIt, IsMagnified img.Name = some (isIt, s.Name, s.MagFactor)) ∧
      s.Rectangle.Min.Y + img.Bounds.Dy ≤ s.Rectangle.Max.Y) ∧
    (∀ (i : Nat) (s t : Sprite), mixedResult.sprites[i]? = some s →
      mixedResult.sprites[i + 1]? = some t →
      s.Rectangle.Max.Y ≤ t.Rectangle.Min.Y)) :=
  have h0 : GenerateSpriteSheet mixedFactors = some mixedResult := by decide
  have h1 : ∀ img ∈ mixedFactors, ∃ isIt base f,
      IsMagnified img.Name = some (isIt, base, f) ∧ f.IsFinite ∧ 0 < f.toRat := by
    intro img h
    simp only [mixedFactors, List.mem_cons, List.mem_singleton, List.not_mem_nil,
      or_false] at h
    rcases h with rfl | rfl | rfl
    · exact ⟨true, "a", F64.ofInt 2, by decide, trivial, by rw [F64.toRat_ofInt]; norm_num⟩
    · exact ⟨false, "b", F64.ofInt 1, by decide, trivial, by rw [F64.toRat_ofInt]; norm_num⟩
    · exact ⟨true, "c", F64.ofInt 3, by decide, trivial, by rw [F64.toRat_ofInt]; norm_num⟩
  have h2 : ∀ img ∈ mixedFactors, 0 ≤ img.Bounds.Dy := by decide
  have h3 : extent mixedFactors < 2 ^ 63 - 1 := by decide
  ⟨h0, h1, h2, h3, stacked_without_overlap mixedFactors mixedResult h0 h1 h2 h3⟩

/-- C4, counterexample: the sprite of a 15 pixel high image named `icon@2x` spans the
rows -1 to 15 and is 16 high; of the sprites of images of heights 1000, 100 and 1,
the last two with the factor `2^63 - 1024`, the second spans the rows `-2^63 + 76` to
`2^63 - 25`, whose difference wraps around to the height -101, and the third is 2
high; and the first sprite of `tallThird`, whose image height `2^53 + 1` is an exact
multiple of its factor 3, is one pixel higher than its image. -/
theorem sprite_height_counterexample :
    oneRetina.map (fun img => img.Bounds.Dy) = [15] ∧
    (GenerateSpriteSheet oneRetina).map
      (fun r => r.sprites.map
        (fun s => (s.MagFactor, s.Rectangle.Min.Y, s.Rectangle.Max.Y, s.Height)))
      = some [(F64.ofInt 2, -1, 15, 16)] ∧
    overflowing.map (fun img => img.Bounds.Dy) = [1000, 100, 1] ∧
    (GenerateSpriteSheet overflowing).map
      (fun r => r.sprites.map
        (fun s => (s.MagFactor, s.Rectangle.Min.Y, s.Rectangle.Max.Y, s.Height)))
      = some [(F64.ofInt 1, 0, 1000, 1000),
          (F64.ofInt 9223372036854774784, -9223372036854775732, 9223372036854775783, -101),
          (F64.ofInt 9223372036854774784, -949, -947, 2)] ∧
    tallThird.map (fun img => img.Bounds.Dy) = [9007199254740993, 1, 1] ∧
    F64.IsMultipleOf 9007199254740993 (F64.ofInt 3) ∧
    (GenerateSpriteSheet tallThird).map
      (fun r => (r.sprites.take 1).map (fun s => (s.MagFactor, s.Height)))
      = some [(F64.ofInt 3, 9007199254740994)] :=
  ⟨by decide, by decide, by decide, by decide, by decide, by decide, by decide⟩

/-- C4 (amended): for images of non-negative size, with the sum over the images of
`height + 2 * |int(ceil(factor))|` below `2^63 - 1` so that no sum leaves the range of
`int`, each sprite that `GenerateSpriteSheet` returns is as wide as its source image,
and as high as its source image when the test
`math.Mod(float64(height), factor) != 0` of the loop fails, one pixel higher when it
succeeds.  For a height up to `2^53`, which `float64` holds exactly, the test fails
exactly when the height is an exact multiple of the factor. -/
theorem sprite_size (images : List Image) (r : SheetResult)
    (hr : GenerateSpriteSheet images = some r)
    (hwf : ∀ img ∈ images, 0 ≤ img.Bounds.Dx ∧ 0 ≤ img.Bounds.Dy)
    (hfit : extent images < 2 ^ 63 - 1) :
    r.sprites.length = images.length ∧
    (∀ (i : Nat) (img : Image) (s : Sprite), images[i]? = some img →
      r.sprites[i]? = some s →
      s.Width = img.Bounds.Dx ∧
      s.Height = img.Bounds.Dy + (if notMultiple img.Bounds.Dy s.MagFactor then 1 else 0) ∧
      (img.Bounds.Dy ≤ 2 ^ 53 →
        s.Height = img.Bounds.Dy
          + (if F64.IsMultipleOf img.Bounds.Dy s.MagFactor then 0 else 1))) := by
  obtain ⟨st, hinv, hpos, rfl⟩ := generateSpriteSheet_spec images r hr hfit
  refine ⟨hinv.length_eq, ?_⟩
  intro i img s hi hs
  have hrect := hpos.rect i img s hi hs
  obtain ⟨⟨isIt, hn⟩, hsf, -, -⟩ := hinv.pads i img s hi hs
  obtain ⟨hx, hy⟩ := hwf img (List.getElem?_mem hi)
  have hfudge := notMultiple_fudge img.Bounds.Dy s.MagFactor
  have hsp := spread_le_extent images img (List.getElem?_mem hi)
  have hsp0 : (img.Bounds.Dy.natAbs : Int) ≤ spread img := by
    rw [spread_eq img isIt _ _ hn]; omega
  have hxr := Dx_isInt64 img
  have hW : s.Width = img.Bounds.Dx := by
    unfold Sprite.Width
    rw [hrect, (Rect_zero_X _ _ _ hx).1, (Rect_zero_X _ _ _ hx).2, sub_zero]
    exact wrap64_eq _ hxr
  have hH : s.Height
      = img.Bounds.Dy + (if notMultiple img.Bounds.Dy s.MagFactor then 1 else 0) := by
    unfold Sprite.Height
    rw [hrect, (Rect_Y _ _ _ _ (by omega)).2, (Rect_Y _ _ _ _ (by omega)).1]
    rw [wrap64_eq _ (by unfold IsInt64; constructor <;> omega)]
    omega
  refine ⟨hW, hH, ?_⟩
  intro hsmall
  rw [hH]
  congr 1
  cases hf : s.MagFactor with
  | inf b => rw [hf] at hsf; exact hsf.elim
  | nan => rw [hf] at hsf; exact hsf.elim
  | fin k =>
    have hiff := notMultiple_iff img.Bounds.Dy k (by rw [abs_of_nonneg hy]; exact hsmall)
    by_cases hm : F64.IsMultipleOf img.Bounds.Dy (F64.fin k)
    · have : notMultiple img.Bounds.Dy (F64.fin k) = false := by
        rw [← Bool.not_eq_true, hiff]; exact not_not.mpr hm
      simp [this, hm]
    · have : notMultiple img.Bounds.Dy (F64.fin k) = true := hiff.mpr hm
      simp [this, hm]

/-- C4, witness of the amended statement at three images of factors 2, 1 and 3, the
first of which, 15 high, gets a sprite 16 high. -/
theorem sprite_size_witness :
    GenerateSpriteSheet mixedFactors = some mixedResult ∧
    (∀ img ∈ mixedFactors, 0 ≤ img.Bounds.Dx ∧ 0 ≤ img.Bounds.Dy) ∧
    extent mixedFactors < 2 ^ 63 - 1 ∧
    mixedResult.sprites.map (fun s => (s.Width, s.Height)) = [(4, 16), (6, 7), (2, 9)] ∧
    (mixedResult.sprites.length = mixedFactors.length ∧
    (∀ (i : Nat) (img : Image) (s : Sprite), mixedFactors[i]? = some img →
      mixedResult.sprites[i]? = some s →
      s.Width = img.Bounds.Dx ∧
      s.Height = img.Bounds.Dy + (if notMultiple img.Bounds.Dy s.MagFactor then 1 else 0) ∧
      (img.Bounds.Dy ≤ 2 ^ 53 →
        s.Height = img.Bounds.Dy
          + (if F64.IsMultipleOf img.Bounds.Dy s.MagFactor then 0 else 1)))) :=
  have h0 : GenerateSpriteSheet mixedFactors = some mixedResult := by decide
  have h2 : ∀ img ∈ mixedFactors, 0 ≤ img.Bounds.Dx ∧ 0 ≤ img.Bounds.Dy := by decide
  have h3 : extent mixedFactors < 2 ^ 63 - 1 := by decide
  ⟨h0, h2, h3, by decide, sprite_size mixedFactors mixedResult h0 h2 h3⟩

/-- C5, failing input: on `icon@` the text after the `@` is empty and indexing its
last byte panics, so `IsMagnified` returns nothing instead of
`(false, "icon@", 1.0)`. -/
theorem isMagnified_empty_factor_panics :
    Split "icon@".data '@' = ["icon".data, []] ∧ IsMagnified "icon@" = none := by
  decide

/-- C6, counterexample: the names `icon@0x` and `icon@-1x` are reported as magnified
with the factors 0 and -1, which are not above 0. -/
theorem factor_zero_counterexample :
    IsMagnified "icon@0x" = some (true, "icon", F64.ofInt 0) ∧
    IsMagnified "icon@-1x" = some (true, "icon", F64.ofInt (-1)) ∧
    ¬ (0 < (F64.ofInt 0).toRat) ∧ ¬ (0 < (F64.ofInt (-1)).toRat) :=
  ⟨by decide, by decide, by rw [F64.toRat_ofInt]; norm_num,
    by rw [F64.toRat_ofInt]; norm_num⟩

/-- C6 (amended): whenever `IsMagnified` returns `isIt = false` the base name is the
full name and the factor is exactly 1.0, which is above 0; whenever it returns
`isIt = true` the name is `base ++ "@" ++ d ++ "x"` and the factor is whatever
number `ParseFloat` read from `d`, with no check of its sign. -/
theorem factor_of_isMagnified (name : String) (isIt : Bool) (base : String) (f : F64)
    (h : IsMagnified name = some (isIt, base, f)) :
    (isIt = false → base = name ∧ f = F64.ofInt 1 ∧ 0 < f.toRat) ∧
    (isIt = true → ∃ d : List Char,
      ParseFloat d = .ok f ∧ name.data = base.data ++ '@' :: (d ++ ['x'])) := by
  have hone : (0 : ℚ) < (F64.ofInt 1).toRat := by
    unfold F64.toRat F64.ofInt
    have : (0 : ℚ) < (unit : ℚ) := by exact_mod_cast Nat.pow_pos (n := 1074) (by decide : 0 < 2)
    simp only [one_mul, Int.cast_natCast]
    exact div_pos this this
  unfold IsMagnified at h
  split at h
  · rename_i baseName factorStr hsplit
    split at h
    · exact absurd h (by simp)
    · rename_i c hlast
      split at h
      · rename_i hc
        split at h
        · injection h with h; injection h with h1 h; injection h with h2 h3
          subst h1 h2 h3
          exact ⟨fun _ => ⟨rfl, rfl, hone⟩, fun h => absurd h (by simp)⟩
        · rename_i v hv
          injection h with h; injection h with h1 h; injection h with h2 h3
          subst h1 h2 h3
          refine ⟨fun h => absurd h (by simp), fun _ => ⟨factorStr.dropLast, hv, ?_⟩⟩
          obtain ⟨e, -, -⟩ := Split_eq_pair _ _ _ _ hsplit
          rw [e]
          have hx : factorStr = factorStr.dropLast ++ ['x'] := by
            have := List.dropLast_append_getLast? 'x' (hc ▸ hlast)
            exact this.symm
          rw [← hx]
      · injection h with h; injection h with h1 h; injection h with h2 h3
        subst h1 h2 h3
        exact ⟨fun _ => ⟨rfl, rfl, hone⟩, fun h => absurd h (by simp)⟩
  · injection h with h; injection h with h1 h; injection h with h2 h3
    subst h1 h2 h3
    exact ⟨fun _ => ⟨rfl, rfl, hone⟩, fun h => absurd h (by simp)⟩

/-- C6, witness of the amended statement at the name `icon@2x`. -/
theorem factor_of_isMagnified_witness :
    IsMagnified "icon@2x" = some (true, "icon", F64.ofInt 2) ∧
    ((true = false → "icon" = "icon@2x" ∧ F64.ofInt 2 = F64.ofInt 1 ∧
        0 < (F64.ofInt 2).toRat) ∧
     (true = true → ∃ d : List Char,
        ParseFloat d = .ok (F64.ofInt 2) ∧
        "icon@2x".data = "icon".data ++ '@' :: (d ++ ['x']))) :=
  ⟨by decide, factor_of_isMagnified "icon@2x" true "icon" (F64.ofInt 2) (by decide)⟩

/-- C7: for a base name without `@` and a numeric literal `d` that `ParseFloat`
reads as `f`, `IsMagnified (base ++ "@" ++ d ++ "x")` returns `(true, base, f)`. -/
theorem isMagnified_literal (base d : String) (f : F64) (hb : '@' ∉ base.data)
    (hd : ParseFloat d.data = .ok f) :
    IsMagnified (base ++ "@" ++ d ++ "x") = some (true, base, f) := by
  have hnd : '@' ∉ d.data := not_mem_of_ParseFloat d.data f hd
  have hdata : (base ++ "@" ++ d ++ "x").data = base.data ++ '@' :: (d.data ++ ['x']) := by
    simp [String.data_append]
  have hnx : '@' ∉ d.data ++ ['x'] := by
    intro h
    rcases List.mem_append.mp h with h | h
    · exact hnd h
    · simp at h
  have hsplit : Split (base ++ "@" ++ d ++ "x").data '@' = [base.data, d.data ++ ['x']] := by
    rw [hdata, Split_append_sep _ _ _ hb, Split_of_not_mem _ _ hnx]
  unfold IsMagnified
  rw [hsplit]
  simp only [List.getLast?_append, List.getLast?_singleton, Option.or_some,
    List.dropLast_concat, hd, if_true]

/-- C7, witness at base name `icon` and literal `2`: the name `icon@2x`. -/
theorem isMagnified_literal_witness :
    '@' ∉ "icon".data ∧ ParseFloat "2".data = .ok (F64.ofInt 2) ∧
    IsMagnified ("icon" ++ "@" ++ "2" ++ "x") = some (true, "icon", F64.ofInt 2) :=
  ⟨by decide, rfl, isMagnified_literal "icon" "2" (F64.ofInt 2) (by decide) rfl⟩


/-- C8, counterexample: for the name `icon@1e19x` the factor is `10^19`, whose
ceiling `10^19` is above every `int`, so that no bottom padding can be equal to it;
the one stored is `-2^63`.  And for the names `b@infx` and `c@infx` the factor is
`+Inf`, whose ceiling `+Inf` is no integer at all; the paddings stored are `-2^63`. -/
theorem padding_counterexample :
    (GenerateSpriteSheet hugeFactor).map
      (fun r => r.sprites.map (fun s => (s.MagFactor, s.BottomPadding)))
      = some [(F64.ofInt 10000000000000000000, -9223372036854775808)] ∧
    ⌈(F64.ofInt 10000000000000000000).toRat⌉ = 10000000000000000000 ∧
    ¬ IsInt64 10000000000000000000 ∧
    (-9223372036854775808 : Int) ≠ 10000000000000000000 ∧
    (GenerateSpriteSheet infiniteFactors).map
      (fun r => r.sprites.map
        (fun s => (s.MagFactor, F64.Ceil s.MagFactor, s.TopPadding, s.BottomPadding)))
      = some [(F64.ofInt 1, F64.ofInt 1, 0, 1),
          (F64.inf false, F64.inf false, -9223372036854775808, -9223372036854775808),
          (F64.inf false, F64.inf false, -9223372036854775808, -9223372036854775808)] :=
  ⟨by decide, ceil_toRat_ofInt _, by unfold IsInt64; norm_num, by decide, by decide⟩

/-- C8 (amended): on every input whose factors are finite with a ceiling in the range
of `int`, the first sprite that `GenerateSpriteSheet` returns has top padding 0, every
later sprite has top padding
`max(ceil(its factor), bottom padding of the sprite before it)`, and every sprite
has bottom padding `ceil(its factor)`, the factor being the one `IsMagnified` gives
for the name of the image at the same position. -/
theorem padding_coalescing (images : List Image) (r : SheetResult)
    (hr : GenerateSpriteSheet images = some r) (hconv : Convertible images) :
    r.sprites.length = images.length ∧
    (∀ s : Sprite, r.sprites[0]? = some s → s.TopPadding = 0) ∧
    (∀ (i : Nat) (p s : Sprite), r.sprites[i]? = some p → r.sprites[i + 1]? = some s →
      s.TopPadding = max ⌈s.MagFactor.toRat⌉ p.BottomPadding) ∧
    (∀ (i : Nat) (img : Image) (s : Sprite), images[i]? = some img →
      r.sprites[i]? = some s →
      (∃ isIt, IsMagnified img.Name = some (isIt, s.Name, s.MagFactor)) ∧
      s.BottomPadding = ⌈s.MagFactor.toRat⌉) := by
  obtain ⟨st, hinv, rfl⟩ := generateSpriteSheet_pads images r hr hconv
  refine ⟨hinv.length_eq, ?_, ?_, ?_⟩
  · intro s hs
    have hs' : st.sprites[0]? = some s := hs
    have hlt : 0 < images.length := by
      rw [← hinv.length_eq]; exact (List.getElem?_eq_some_iff.mp hs').1
    obtain ⟨-, -, -, ht⟩ := hinv.pads 0 images[0] s (List.getElem?_eq_getElem hlt) hs'
    simpa [topPad] using ht
  · intro i p s hp hs
    have hp' : st.sprites[i]? = some p := hp
    have hs' : st.sprites[i + 1]? = some s := hs
    have hlt : i + 1 < images.length := by
      rw [← hinv.length_eq]; exact (List.getElem?_eq_some_iff.mp hs').1
    obtain ⟨-, -, -, ht⟩ :=
      hinv.pads (i + 1) images[i + 1] s (List.getElem?_eq_getElem hlt) hs'
    rw [getLast?_take_succ _ i p hp'] at ht
    exact ht
  · intro i img s hi hs
    obtain ⟨hn, -, hb, -⟩ := hinv.pads i img s hi hs
    exact ⟨hn, hb⟩

/-- C8, witness at images of factors 2, 1 and 3, whose top paddings are 0, 2, 3 and
bottom paddings 2, 1, 3. -/
theorem padding_coalescing_witness :
    GenerateSpriteSheet mixedFactors = some mixedResult ∧
    Convertible mixedFactors ∧
    mixedResult.sprites.map (fun s => (s.TopPadding, s.BottomPadding))
      = [(0, 2), (2, 1), (3, 3)] ∧
    (mixedResult.sprites.length = mixedFactors.length ∧
    (∀ s : Sprite, mixedResult.sprites[0]? = some s → s.TopPadding = 0) ∧
    (∀ (i : Nat) (p s : Sprite), mixedResult.sprites[i]? = some p →
      mixedResult.sprites[i + 1]? = some s →
      s.TopPadding = max ⌈s.MagFactor.toRat⌉ p.BottomPadding) ∧
    (∀ (i : Nat) (img : Image) (s : Sprite), mixedFactors[i]? = some img →
      mixedResult.sprites[i]? = some s →
      (∃ isIt, IsMagnified img.Name = some (isIt, s.Name, s.MagFactor)) ∧
      s.BottomPadding = ⌈s.MagFactor.toRat⌉)) :=
  have h0 : GenerateSpriteSheet mixedFactors = some mixedResult := by decide
  have h : Convertible mixedFactors := by
    intro img himg
    simp only [mixedFactors, List.mem_cons, List.mem_singleton, List.not_mem_nil,
      or_false] at himg
    rcases himg with rfl | rfl | rfl
    · exact ⟨true, "a", F64.ofInt 2, by decide, trivial,
        by rw [ceil_toRat_ofInt]; unfold IsInt64; norm_num⟩
    · exact ⟨false, "b", F64.ofInt 1, by decide, trivial,
        by rw [ceil_toRat_ofInt]; unfold IsInt64; norm_num⟩
    · exact ⟨true, "c", F64.ofInt 3, by decide, trivial,
        by rw [ceil_toRat_ofInt]; unfold IsInt64; norm_num⟩
  ⟨h0, h, by decide, padding_coalescing mixedFactors mixedResult h0 h⟩

/-- C9, counterexample: the second of two unmagnified sprites lies at sheet row 11,
factor 1.0, and all three generators print -11 for its y; and for a sprite of factor
3 that is `2^53 + 1 = 3 * 3002399751580331` wide the width printed is
3002399751580330.5, because `float64(2^53 + 1)` is `2^53`. -/
theorem logical_y_counterexample :
    (GenerateSpriteSheet [mkImage "a" 5 10, mkImage "b" 7 20]).map
      (fun r => (r.sprites.map (fun s => (s.MagFactor, s.Rectangle.Min.Y)),
        (GenerateScssVariables r.sprites).map (fun lr => lr.y),
        (GenerateScssMixins r.sprites).map (fun lr => lr.y),
        (GenerateCssClasses r.sprites).map (fun lr => lr.y)))
      = some ([(F64.ofInt 1, 0), (F64.ofInt 1, 11)],
          [F64.ofInt 0, F64.ofInt (-11)], [F64.ofInt 0, F64.ofInt (-11)],
          [F64.ofInt 0, F64.ofInt (-11)]) ∧
    F64.ofInt (-11) ≠ F64.ofInt 11 ∧
    (wideSprite.MagFactor, wideSprite.Width) = (F64.ofInt 3, 3 * 3002399751580331) ∧
    [GenerateScssVariables [wideSprite], GenerateScssMixins [wideSprite],
        GenerateCssClasses [wideSprite]].map (fun l => l.map (fun lr => lr.width))
      = [[F64.fin (6004799503160661 * ((2 ^ 1073 : Nat) : Int))],
          [F64.fin (6004799503160661 * ((2 ^ 1073 : Nat) : Int))],
          [F64.fin (6004799503160661 * ((2 ^ 1073 : Nat) : Int))]] ∧
    F64.fin (6004799503160661 * ((2 ^ 1073 : Nat) : Int)) ≠ F64.ofInt 3002399751580331 := by
  decide

/-- C9 (amended): for a sprite with a finite factor other than 0, in particular
above 0, the three generators print the same four numbers, and each is the float64
quotient by the factor of `float64(v)`, `v` being the corresponding value among
`-Min.X`, `-Min.Y`, `Width()` and `Height()`: the position is the negated sheet
position.  For a value `v` up to `2^53` in magnitude, which `float64` holds exactly:
a printed number that is finite is a float64 nearest to the exact quotient `v /
factor`; whenever the exact quotient is itself a float64 it is the number printed, so
that printed value times factor is the sheet-pixel value; and for factor 1.0 the
numbers printed are exactly `-Min.X`, `-Min.Y`, `Width()` and `Height()`. -/
theorem logical_rect (sprites : List Sprite) (i : Nat) (s : Sprite)
    (hs : sprites[i]? = some s) (hfin : s.MagFactor.IsFinite) (hne : s.MagFactor.toRat ≠ 0) :
    ∃ lr : LogicalRect,
      (GenerateScssVariables sprites)[i]? = some lr ∧
      (GenerateScssMixins sprites)[i]? = some lr ∧
      (GenerateCssClasses sprites)[i]? = some lr ∧
      lr = ⟨F64.div (F64.fromInt (wrap64 (-s.Rectangle.Min.X))) s.MagFactor,
        F64.div (F64.fromInt (wrap64 (-s.Rectangle.Min.Y))) s.MagFactor,
        F64.div (F64.fromInt s.Width) s.MagFactor,
        F64.div (F64.fromInt s.Height) s.MagFactor⟩ ∧
      (∀ p ∈ [(-s.Rectangle.Min.X, lr.x), (-s.Rectangle.Min.Y, lr.y),
          (s.Width, lr.width), (s.Height, lr.height)],
        |p.1| ≤ 2 ^ 53 →
        p.2 = F64.div (F64.ofInt p.1) s.MagFactor ∧
        (p.2.IsFinite → F64.IsNearest p.2 ((p.1 : ℚ) / s.MagFactor.toRat)) ∧
        (∀ g : F64, g.IsFinite → g.IsFloat64 → (p.1 : ℚ) = g.toRat * s.MagFactor.toRat →
          p.2 = g) ∧
        (s.MagFactor = F64.ofInt 1 → p.2 = F64.ofInt p.1)) := by
  have key : ∀ v w : Int, |v| ≤ 2 ^ 53 → w = v →
      F64.div (F64.fromInt w) s.MagFactor = F64.div (F64.ofInt v) s.MagFactor ∧
      ((F64.div (F64.fromInt w) s.MagFactor).IsFinite →
        F64.IsNearest (F64.div (F64.fromInt w) s.MagFactor) ((v : ℚ) / s.MagFactor.toRat)) ∧
      (∀ g : F64, g.IsFinite → g.IsFloat64 → (v : ℚ) = g.toRat * s.MagFactor.toRat →
        F64.div (F64.fromInt w) s.MagFactor = g) ∧
      (s.MagFactor = F64.ofInt 1 → F64.div (F64.fromInt w) s.MagFactor = F64.ofInt v) := by
    intro v w hv hw
    subst hw
    rw [F64.fromInt_small w hv]
    refine ⟨rfl, fun h => div_nearest w _ hfin hne h,
      fun g hg hg64 h => div_exact _ _ g hfin hne hg hg64 h, fun h1 => ?_⟩
    refine div_exact w _ (F64.ofInt w) hfin hne trivial (F64.isFloat64_ofInt_le w hv) ?_
    rw [h1, F64.toRat_ofInt, F64.toRat_ofInt]
    simp
  have hneg : ∀ v : Int, |v| ≤ 2 ^ 53 → wrap64 (-v) = -v := by
    intro v hv
    have := abs_le.mp hv
    exact wrap64_eq _ (by unfold IsInt64; constructor <;> omega)
  refine ⟨⟨F64.div (F64.fromInt (wrap64 (-s.Rectangle.Min.X))) s.MagFactor,
    F64.div (F64.fromInt (wrap64 (-s.Rectangle.Min.Y))) s.MagFactor,
    F64.div (F64.fromInt s.Width) s.MagFactor,
    F64.div (F64.fromInt s.Height) s.MagFactor⟩, ?_, ?_, ?_, rfl, ?_⟩
  · simp [GenerateScssVariables, List.getElem?_map, hs]
  · simp [GenerateScssMixins, List.getElem?_map, hs]
  · simp [GenerateCssClasses, List.getElem?_map, hs]
  · intro p hp hv
    simp only [List.mem_cons, List.mem_singleton, List.not_mem_nil, or_false] at hp
    rcases hp with rfl | rfl | rfl | rfl
    · exact key _ _ hv (hneg _ (by rwa [abs_neg] at hv))
    · exact key _ _ hv (hneg _ (by rwa [abs_neg] at hv))
    · exact key _ _ hv rfl
    · exact key _ _ hv rfl

/-- C9, witness of the amended statement at a sprite of factor 2 at the rows 12 to
42, for which -0, -6, 4 and 15 are printed. -/
theorem logical_rect_witness :
    [retinaSprite][0]? = some retinaSprite ∧ retinaSprite.MagFactor.IsFinite ∧
    retinaSprite.MagFactor.toRat ≠ 0 ∧
    GenerateCssClasses [retinaSprite]
      = [⟨F64.ofInt 0, F64.ofInt (-6), F64.ofInt 4, F64.ofInt 15⟩] ∧
    ∃ lr : LogicalRect,
      (GenerateScssVariables [retinaSprite])[0]? = some lr ∧
      (GenerateScssMixins [retinaSprite])[0]? = some lr ∧
      (GenerateCssClasses [retinaSprite])[0]? = some lr ∧
      lr = ⟨F64.div (F64.fromInt (wrap64 (-retinaSprite.Rectangle.Min.X)))
          retinaSprite.MagFactor,
        F64.div (F64.fromInt (wrap64 (-retinaSprite.Rectangle.Min.Y))) retinaSprite.MagFactor,
        F64.div (F64.fromInt retinaSprite.Width) retinaSprite.MagFactor,
        F64.div (F64.fromInt retinaSprite.Height) retinaSprite.MagFactor⟩ ∧
      (∀ p ∈ [(-retinaSprite.Rectangle.Min.X, lr.x), (-retinaSprite.Rectangle.Min.Y, lr.y),
          (retinaSprite.Width, lr.width), (retinaSprite.Height, lr.height)],
        |p.1| ≤ 2 ^ 53 →
        p.2 = F64.div (F64.ofInt p.1) retinaSprite.MagFactor ∧
        (p.2.IsFinite → F64.IsNearest p.2 ((p.1 : ℚ) / retinaSprite.MagFactor.toRat)) ∧
        (∀ g : F64, g.IsFinite → g.IsFloat64 →
          (p.1 : ℚ) = g.toRat * retinaSprite.MagFactor.toRat → p.2 = g) ∧
        (retinaSprite.MagFactor = F64.ofInt 1 → p.2 = F64.ofInt p.1)) :=
  have h1 : [retinaSprite][0]? = some retinaSprite := rfl
  have h2 : retinaSprite.MagFactor.IsFinite := trivial
  have h3 : retinaSprite.MagFactor.toRat ≠ 0 := by
    show (F64.ofInt 2).toRat ≠ 0
    rw [F64.toRat_ofInt]; norm_num
  ⟨h1, h2, h3, by decide, logical_rect [retinaSprite] 0 retinaSprite h1 h2 h3⟩

/-- C10, counterexample: of the sprites of images of heights 1000, 100 and 1, the
last two with the factor `2^63 - 1024`, the second has offset 1000, top padding
`2^63 - 1024` and height 100, whose sum `2^63 + 76` is not an `int`: its bottom edge
is `2^63 - 25`.  And the first sprite of `tallThird`, of height `2^53 + 1`, an exact
multiple of its factor 3, gets the top edge -1 and a warning, because
`float64(2^53 + 1)` is `2^53`; the sheet of that input is 6 high. -/
theorem fudge_offset_counterexample :
    overflowing.map (fun img => img.Bounds.Dy) = [1000, 100, 1] ∧
    (GenerateSpriteSheet overflowing).map
      (fun r => r.sprites.map (fun s => (s.TopPadding, s.Rectangle.Min.Y, s.Rectangle.Max.Y)))
      = some [(0, 0, 1000),
          (9223372036854774784, -9223372036854775732, 9223372036854775783),
          (9223372036854774784, -949, -947)] ∧
    (1000 + 0 : Int) + 9223372036854774784 + 100 ≠ 9223372036854775783 ∧
    tallThird.map (fun img => img.Bounds.Dy) = [9007199254740993, 1, 1] ∧
    F64.IsMultipleOf 9007199254740993 (F64.ofInt 3) ∧
    (GenerateSpriteSheet tallThird).map (fun r => r.sheet) = some ⟨⟨0, 0⟩, ⟨1, 6⟩⟩ ∧
    (GenerateSpriteSheet tallThird).map
      (fun r => ((r.sprites.take 1).map
        (fun s => (s.MagFactor, s.TopPadding, s.Rectangle.Min.Y, s.Rectangle.Max.Y)),
        r.log.take 1))
      = some ([(F64.ofInt 3, 0, -1, 9007199254740993)],
          [⟨"t", 9007199254740993, F64.ofInt 3⟩]) := by
  decide

/-- C10 (amended): for images of non-negative height, with the sum over the images
of `height + 2 * |int(ceil(factor))|` below `2^63 - 1` so that no sum leaves the range
of `int`, and with `offset_i` the sum over the earlier sprites of image height plus
top padding: sprite `i` has bottom edge `offset_i + TopPadding_i + height_i`, and top
edge `offset_i + TopPadding_i` when the test
`math.Mod(float64(height), factor) != 0` of the loop fails and one pixel less when it
succeeds; the log holds, in order, exactly one warning for each sprite of the second
kind.  For a height up to `2^53`, which `float64` holds exactly, the test succeeds
exactly when the height is not an exact multiple of the factor. -/
theorem fudge_offset (images : List Image) (r : SheetResult)
    (hr : GenerateSpriteSheet images = some r)
    (hwf : ∀ img ∈ images, 0 ≤ img.Bounds.Dy) (hfit : extent images < 2 ^ 63 - 1) :
    r.sprites.length = images.length ∧
    (∀ (i : Nat) (img : Image) (s : Sprite), images[i]? = some img →
      r.sprites[i]? = some s →
      s.Rectangle.Max.Y
        = paddedHeights (images.take i) (r.sprites.take i) + s.TopPadding + img.Bounds.Dy ∧
      s.Rectangle.Min.Y
        = paddedHeights (images.take i) (r.sprites.take i) + s.TopPadding
          - (if notMultiple img.Bounds.Dy s.MagFactor then 1 else 0) ∧
      (img.Bounds.Dy ≤ 2 ^ 53 →
        (notMultiple img.Bounds.Dy s.MagFactor = true
          ↔ ¬ F64.IsMultipleOf img.Bounds.Dy s.MagFactor))) ∧
    r.log = (images.zip r.sprites).filterMap
      (fun p => if notMultiple p.1.Bounds.Dy p.2.MagFactor
        then some ⟨p.2.Name, p.1.Bounds.Dy, p.2.MagFactor⟩ else none) := by
  obtain ⟨st, hinv, hpos, rfl⟩ := generateSpriteSheet_spec images r hr hfit
  refine ⟨hinv.length_eq, ?_, hinv.log_eq⟩
  intro i img s hi hs
  have hrect := hpos.rect i img s hi hs
  obtain ⟨-, hsf, -, -⟩ := hinv.pads i img s hi hs
  have hh := hwf img (List.getElem?_mem hi)
  have hfudge := notMultiple_fudge img.Bounds.Dy s.MagFactor
  simp only at hrect ⊢
  have hY := Rect_Y 0
    (paddedHeights (images.take i) (st.sprites.take i) + s.TopPadding
      - (if notMultiple img.Bounds.Dy s.MagFactor then 1 else 0))
    img.Bounds.Dx
    (paddedHeights (images.take i) (st.sprites.take i) + s.TopPadding + img.Bounds.Dy)
    (by omega)
  rw [hrect]
  refine ⟨hY.2, hY.1, ?_⟩
  intro hsmall
  cases hf : s.MagFactor with
  | inf b => rw [hf] at hsf; exact hsf.elim
  | nan => rw [hf] at hsf; exact hsf.elim
  | fin k => exact notMultiple_iff img.Bounds.Dy k (by rw [abs_of_nonneg hh]; exact hsmall)

/-- C10, witness at three images of factors 2, 1 and 3 and heights 15, 7 and 9: the
first gets the top edge -1 instead of 0 and the only warning. -/
theorem fudge_offset_witness :
    GenerateSpriteSheet mixedFactors = some mixedResult ∧
    (∀ img ∈ mixedFactors, 0 ≤ img.Bounds.Dy) ∧
    extent mixedFactors < 2 ^ 63 - 1 ∧
    (mixedResult.sprites.map (fun s => (s.TopPadding, s.Rectangle.Min.Y, s.Rectangle.Max.Y)),
        mixedResult.log)
      = ([(0, -1, 15), (2, 17, 24), (3, 27, 36)], [⟨"a", 15, F64.ofInt 2⟩]) ∧
    (mixedResult.sprites.length = mixedFactors.length ∧
    (∀ (i : Nat) (img : Image) (s : Sprite), mixedFactors[i]? = some img →
      mixedResult.sprites[i]? = some s →
      s.Rectangle.Max.Y
        = paddedHeights (mixedFactors.take i) (mixedResult.sprites.take i) + s.TopPadding
          + img.Bounds.Dy ∧
      s.Rectangle.Min.Y
        = paddedHeights (mixedFactors.take i) (mixedResult.sprites.take i) + s.TopPadding
          - (if notMultiple img.Bounds.Dy s.MagFactor then 1 else 0) ∧
      (img.Bounds.Dy ≤ 2 ^ 53 →
        (notMultiple img.Bounds.Dy s.MagFactor = true
          ↔ ¬ F64.IsMultipleOf img.Bounds.Dy s.MagFactor))) ∧
    mixedResult.log = (mixedFactors.zip mixedResult.sprites).filterMap
      (fun p => if notMultiple p.1.Bounds.Dy p.2.MagFactor
        then some ⟨p.2.Name, p.1.Bounds.Dy, p.2.MagFactor⟩ else none)) :=
  have h0 : GenerateSpriteSheet mixedFactors = some mixedResult := by decide
  have h2 : ∀ img ∈ mixedFactors, 0 ≤ img.Bounds.Dy := by decide
  have h3 : extent mixedFactors < 2 ^ 63 - 1 := by decide
  ⟨h0, h2, h3, by decide, fudge_offset mixedFactors mixedResult h0 h2 h3⟩

end Spracker
